import Mathlib

/-!
Verification of the data-item request resolution and differential-loading
engine of laf-fabric (`laf/names.py`, class `Names`).

Strings are embedded as `List Char` (`Str`); Python's `OrderedDict` is
embedded as an association list with insert-or-update semantics
(`odInsert`); fallible Python code (KeyError, IndexError, TypeError,
tuple-destructuring errors) is embedded with `Option`, where `none` means
the Python code raises.
-/

namespace Laf

abbrev Str := List Char

/-- `Names.DCOMP_SEP = ','`: separator between the components of a data key. -/
def DCOMP_SEP : Char := ','

/-- Python `sep.join(parts)` for a one-character separator, on `List Char` strings. -/
def joinSep (sep : Char) : List Str → Str
  | [] => []
  | [x] => x
  | x :: xs => x ++ sep :: joinSep sep xs

/-- Python `s.split(sep)` for a one-character separator: splits at every
occurrence; the result is always nonempty (`''.split(sep) == ['']`). -/
def splitAll (sep : Char) : Str → List Str
  | [] => [[]]
  | c :: rest =>
    match splitAll sep rest with
    | [] => [[c]]
    | h :: t => if c = sep then [] :: h :: t else (c :: h) :: t

/-- Python `s.rstrip(c)`: removes every trailing occurrence of `c`. -/
def rstripChar (c : Char) (s : Str) : Str :=
  (s.reverse.dropWhile (fun a => a = c)).reverse

/-- `Names.comp(dkeymin, dcomps) = '{}({})'.format(dkeymin, DCOMP_SEP.join(dcomps))`. -/
def comp (dkeymin : Str) (dcomps : List Str) : Str :=
  dkeymin ++ '(' :: (joinSep DCOMP_SEP dcomps ++ [')'])

/-- `Names.comp_file(dgroup, dkind, ddir, dcomps) = '{}{}{}({})'.format(...)`. -/
def comp_file (dgroup dkind ddir : Char) (dcomps : List Str) : Str :=
  dgroup :: dkind :: ddir :: '(' :: (joinSep DCOMP_SEP dcomps ++ [')'])

/-- `Names.decomp(dkey)`: `dkey.split('(', 1)`; when a `'('` is present the
result is `(head, '(' + rest)` (the suffix from the first `'('` on),
otherwise `(dkey, '')`. -/
def decomp (dkey : Str) : Str × Str :=
  match dkey.dropWhile (fun a => a ≠ '(') with
  | [] => (dkey, [])
  | rest => (dkey.takeWhile (fun a => a ≠ '('), rest)

/-- `Names.decomp_full(dkey)`: `parts = dkey.split('(')`, then
`tuple(parts[0]) + (tuple(parts[1].rstrip(')').split(DCOMP_SEP)),)`.
Returns `none` exactly when `parts[1]` does not exist (Python `IndexError`),
i.e. when the key contains no `'('`. -/
def decomp_full (dkey : Str) : Option (Str × List Str) :=
  match splitAll '(' dkey with
  | _ :: [] => none
  | p0 :: p1 :: _ => some (p0, splitAll DCOMP_SEP (rstripChar ')' p1))
  | [] => none

/-- The five-way destructuring `(dorigin, dgroup, dkind, ddir, dcomps) =
Names.decomp_full(dkey)` performed at every call site (`dinfo`, `dmsg`):
it additionally fails (Python `ValueError`) unless the pre-`'('` part has
exactly four characters. -/
def decomp_full5 (dkey : Str) : Option (Char × Char × Char × Char × List Str) :=
  match decomp_full dkey with
  | some ([o, g, k, d], comps) => some (o, g, k, d, comps)
  | _ => none

/-- The value of `Names.dinfo`: a Python 5-tuple whose fields are either all
`None` (group `'T'`) or all present.  Field order:
`(is_persistent, location, file_name, data_type, is_derived_only)`. -/
structure DInfoT where
  persistent : Option Bool
  loc : Option Str
  fileName : Option Str
  dtype : Option Str
  derivedOnly : Option Bool
deriving DecidableEq, Repr

/-- `(None, None, None, None, None)`, returned by `dinfo` for group `'T'`. -/
def DInfoT.nullInfo : DInfoT := ⟨none, none, none, none, none⟩

instance : Inhabited DInfoT := ⟨DInfoT.nullInfo⟩

/-- A requirement slot (a value of `req_items` / a default occurrence value in
`_data_items_tpl`): Python `True`/`False`, `None`, or a list of component
lists. -/
inductive Req where
  | bool : Bool → Req
  | pynone : Req
  | comps : List (List Str) → Req
deriving DecidableEq, Repr

/-- First-match association-list lookup: Python `d[k]` / `k in d` on a dict
with (as Python guarantees) unique keys. -/
def lookupA {β : Type} : List (Str × β) → Str → Option β
  | [], _ => none
  | p :: ps, k => if p.1 = k then some p.2 else lookupA ps k

/-- Python `OrderedDict` assignment `d[k] = v`: update in place when the key
is present (keeping its position), append otherwise. -/
def odInsert {β : Type} (items : List (Str × β)) (k : Str) (v : β) : List (Str × β) :=
  match lookupA items k with
  | some _ => items.map (fun p => if p.1 = k then (k, v) else p)
  | none => items ++ [(k, v)]

/-- `Names._data_items_tpl`: the fixed template table. -/
def data_items_tpl : List (Str × (Req × Str)) := [
  (("mP00 node_anchor".toList), (Req.bool false, ("arr".toList))),
  (("mP00 node_anchor_items".toList), (Req.bool false, ("arr".toList))),
  (("mG00 node_anchor_min".toList), (Req.bool true, ("arr".toList))),
  (("mG00 node_anchor_max".toList), (Req.bool true, ("arr".toList))),
  (("mP00 node_events".toList), (Req.bool false, ("arr".toList))),
  (("mP00 node_events_items".toList), (Req.bool false, ("arr".toList))),
  (("mP00 node_events_k".toList), (Req.bool false, ("arr".toList))),
  (("mP00 node_events_n".toList), (Req.bool false, ("arr".toList))),
  (("mG00 node_sort".toList), (Req.bool true, ("arr".toList))),
  (("mG00 node_sort_inv".toList), (Req.bool true, ("dct".toList))),
  (("mG00 edges_from".toList), (Req.bool true, ("arr".toList))),
  (("mG00 edges_to".toList), (Req.bool true, ("arr".toList))),
  (("mP00 primary_data".toList), (Req.bool false, ("str".toList))),
  (("mXnf".toList), (Req.comps [], ("dct".toList))),
  (("mXef".toList), (Req.comps [], ("dct".toList))),
  (("mXnb".toList), (Req.comps [], ("dct".toList))),
  (("mXeb".toList), (Req.comps [], ("dct".toList))),
  (("mFn0".toList), (Req.comps [], ("dct".toList))),
  (("mFe0".toList), (Req.comps [], ("dct".toList))),
  (("mC0f".toList), (Req.comps [], ("dct".toList))),
  (("mC0b".toList), (Req.comps [], ("dct".toList))),
  (("aFn0".toList), (Req.comps [], ("dct".toList))),
  (("aFe0".toList), (Req.comps [], ("dct".toList))),
  (("aC0f".toList), (Req.comps [], ("dct".toList))),
  (("aC0b".toList), (Req.comps [], ("dct".toList))),
  (("zG00 node_sort".toList), (Req.pynone, ("arr".toList))),
  (("zG00 node_sort_inv".toList), (Req.pynone, ("dct".toList)))]

/-- Key normalization in `Names.__init__`: `parts = dkey_raw.split(' ')`;
`'{}({})'.format(parts[0], DCOMP_SEP.join(parts[1:]))` when there is more
than one part, else the raw key. -/
def mkCatalogKey (raw : Str) : Str :=
  match splitAll ' ' raw with
  | p0 :: p1 :: rest => comp p0 (p1 :: rest)
  | _ => raw

/-- `Names._data_items_def`: the ordered catalog built in `__init__` from the
template. -/
def data_items_def : List (Str × (Req × Str)) :=
  data_items_tpl.foldl (fun acc e => odInsert acc (mkCatalogKey e.1) e.2) []

/-- The catalog's keys in order (Python's iteration over `_data_items_def`). -/
def catalogKeys : List Str := data_items_def.map Prod.fst

/-- The environment mapping consulted by `dinfo` (`self.env`). -/
abbrev Env := List (Str × Str)

/-- `'{}_compiled_dir'.format(dorigin)`. -/
def compiledDirKey (o : Char) : Str := o :: ("_compiled_dir".toList)

/-- The catalog lookup of `Names.dinfo`: the full key if present, else its
minimal key (`Names.decomp(dkey)[0]`); `none` is a Python `KeyError`. -/
def catLookup (cat : List (Str × (Req × Str))) (dkey : Str) : Option (Req × Str) :=
  match lookupA cat dkey with
  | some d => some d
  | none => lookupA cat (decomp dkey).1

/-- `Names.dinfo`, parameterized by the catalog it reads
(`Names._data_items_def`).  `none` models each of the Python failures:
catalog `KeyError` on both the full key and its minimal key, destructuring
failure of `decomp_full`, and environment `KeyError`. -/
def dinfoC (cat : List (Str × (Req × Str))) (env : Env) (dkey : Str) : Option DInfoT :=
  match catLookup cat dkey with
  | none => none
  | some (_, dtype) =>
    match decomp_full5 dkey with
    | none => none
    | some (o, g, k, d, comps) =>
      if g = 'T' then some DInfoT.nullInfo
      else
        match lookupA env (compiledDirKey o) with
        | none => none
        | some dloc =>
          some ⟨some (decide (g ≠ 'F' ∧ g ≠ 'C')), some dloc,
                some (comp_file g k d comps), some dtype, some (decide (o = 'z'))⟩

/-- `Names.dinfo` with the shipped catalog. -/
def dinfo (env : Env) (dkey : Str) : Option DInfoT :=
  dinfoC data_items_def env dkey

/-- The inner loop of `request_files` for a structural requirement value:
`for dcomps in req_items[docc]: self.req_data_items[comp(dkey, dcomps)] =
dinfo(comp(dkey, dcomps))`. -/
def resolveComps (env : Env) (dkey : Str) : List (List Str) → List (Str × DInfoT) →
    Option (List (Str × DInfoT))
  | [], items => some items
  | c :: cs, items =>
    match dinfo env (comp dkey c) with
    | none => none
    | some v => resolveComps env dkey cs (odInsert items (comp dkey c) v)

/-- The body of the first loop of `request_files` for one catalog key:
skip when the minimal key is absent from `req_items`; emit the catalog key
itself when the requirement `== True`; skip on `== False` / `== None`;
otherwise emit one key per element of the requirement value. -/
def resolveStep (env : Env) (req : List (Str × Req)) (items : List (Str × DInfoT))
    (dkey : Str) : Option (List (Str × DInfoT)) :=
  match lookupA req (decomp dkey).1 with
  | none => some items
  | some (Req.bool true) =>
    match dinfo env dkey with
    | none => none
    | some v => some (odInsert items dkey v)
  | some (Req.bool false) => some items
  | some Req.pynone => some items
  | some (Req.comps l) => resolveComps env dkey l items

/-- The first loop of `request_files` over the catalog keys, building
`self.req_data_items`. -/
def resolveList (env : Env) (req : List (Str × Req)) : List Str → List (Str × DInfoT) →
    Option (List (Str × DInfoT))
  | [], items => some items
  | dkey :: rest, items =>
    match resolveStep env req items dkey with
    | none => none
    | some items2 => resolveList env req rest items2

/-- The new `req_data_items` mapping computed by `request_files` from a
requirement mapping. -/
def resolveReq (env : Env) (req : List (Str × Req)) : Option (List (Str × DInfoT)) :=
  resolveList env req catalogKeys []

/-- Python `not new_data_items[dkey][-1]`: the last tuple field
(`is_derived_only`) is falsy, i.e. `None` or `False`. -/
def lastFalsy (v : DInfoT) : Bool := !(decide (v.derivedOnly = some true))

/-- The `clear` test of `request_files`:
`dkey not in new_data_items or new_data_items[dkey] != old_data_items[dkey]`. -/
def clearCond (newItems : List (Str × DInfoT)) (kv : Str × DInfoT) : Bool :=
  match lookupA newItems kv.1 with
  | none => true
  | some v2 => decide (¬ v2 = kv.2)

/-- The `keep` test of `request_files`:
`dkey in old_data_items and new_data_items[dkey] == old_data_items[dkey]`. -/
def keepCond (oldItems : List (Str × DInfoT)) (kv : Str × DInfoT) : Bool :=
  decide (lookupA oldItems kv.1 = some kv.2)

/-- The second half of `request_files`: the clear/keep/load partition,
in the order `(clear, keep, load)`. -/
def partitionKeys (oldItems newItems : List (Str × DInfoT)) :
    List Str × List Str × List Str :=
  ((oldItems.filter (clearCond newItems)).map Prod.fst,
   (newItems.filter (keepCond oldItems)).map Prod.fst,
   (newItems.filter (fun kv => !(keepCond oldItems kv) && lastFalsy kv.2)).map Prod.fst)

/-- `Names.request_files`: given the remembered prior resolution
(`self.req_data_items` before the call) and a requirement mapping, returns
the `(clear, keep, load)` partition together with the new resolution, which
becomes the remembered state for the next call.  `none` models an uncaught
Python exception during resolution. -/
def request_files (env : Env) (oldItems : List (Str × DInfoT)) (req : List (Str × Req)) :
    Option ((List Str × List Str × List Str) × List (Str × DInfoT)) :=
  match resolveReq env req with
  | none => none
  | some newItems => some (partitionKeys oldItems newItems, newItems)

/-- The keys emitted by one catalog entry in the first loop of
`request_files`, by requirement branch: `[dkey]` for `== True`, nothing for
absent / `== False` / `== None`, and `comp dkey c` for each element `c` of a
structural requirement value. -/
def entryEmits (req : List (Str × Req)) (dkey : Str) : List Str :=
  match lookupA req (decomp dkey).1 with
  | none => []
  | some (Req.bool true) => [dkey]
  | some (Req.bool false) => []
  | some Req.pynone => []
  | some (Req.comps l) => l.map (fun c => comp dkey c)

/-- A Python value as far as `Names.check_load_dict` can observe one:
booleans, integers, strings, lists, plain dicts, `collections.OrderedDict`,
and `None`.  Dicts are entry lists (Python dicts preserve insertion order
and have unique keys). -/
inductive PyVal where
  | bool : Bool → PyVal
  | int : Int → PyVal
  | str : Str → PyVal
  | list : List PyVal → PyVal
  | dict : List (PyVal × PyVal) → PyVal
  | odict : List (PyVal × PyVal) → PyVal
  | pynone : PyVal

/-- Python `v == s` against a string literal: only equal-content strings
compare equal. -/
def pyEqStr (v : PyVal) (s : Str) : Bool :=
  match v with
  | .str t => decide (t = s)
  | _ => false

/-- Python `v == b` against a boolean literal: `True == 1` and `False == 0`
(bool is an int subtype), every other value is unequal. -/
def pyEqBool (v : PyVal) (b : Bool) : Bool :=
  match v with
  | .bool a => a == b
  | .int n => decide (n = (if b then 1 else 0))
  | _ => false

/-- A Python value usable in a hash-based membership test: lists, dicts and
ordered dicts are unhashable, and probing them against a set raises
`TypeError`; booleans, ints, strings and `None` are hashable. -/
def pyHashable : PyVal → Bool
  | .list _ => false
  | .dict _ => false
  | .odict _ => false
  | _ => true

/-- Python `val in {False, True}` (`Names.kind_types`): the membership test
hashes `val` first, so it raises `TypeError` (`none`) on unhashable values;
otherwise it reports whether `val` equals `False` or `True` under Python
equality. -/
def inKindTypes (v : PyVal) : Option Bool :=
  match v with
  | .list _ => none
  | .dict _ => none
  | .odict _ => none
  | _ => some (pyEqBool v false || pyEqBool v true)

/-- A Python value usable as a sequence index (ints, and bools as 0/1). -/
def pyIndex (v : PyVal) : Option Int :=
  match v with
  | .int i => some i
  | .bool b => some (if b then 1 else 0)
  | _ => none

/-- Python subscription `container[k]` as used by the validator:
dict lookup happens positionally via `pyItems` below, so here only the
non-dict containers matter; `none` models `TypeError` / `IndexError`. -/
def pyGetSeq (l : List PyVal) (k : PyVal) : Option PyVal :=
  match pyIndex k with
  | none => none
  | some i =>
    match (if i < 0 then (l.length : Int) + i else i) with
    | Int.ofNat j => l.get? j
    | Int.negSucc _ => none

/-- Python `for x in v` paired with the subscription `v[x]` the validator
performs on success: for a dict, iteration yields the keys and `v[key]` is
that entry's value; for a list, the elements (and `v[elem]` only works for
integer elements); for a string, its one-character substrings (on which
subscription by a string raises); for every other value, iteration raises
`TypeError` (`none`). -/
def pyItems (v : PyVal) : Option (List (PyVal × Option PyVal)) :=
  match v with
  | .dict l => some (l.map (fun p => (p.1, some p.2)))
  | .odict l => some (l.map (fun p => (p.1, some p.2)))
  | .list l => some (l.map (fun e => (e, pyGetSeq l e)))
  | .str s => some (s.map (fun c => (PyVal.str [c], none)))
  | _ => none

/-- One collected validator message, one constructor per `errors.append`
site in `Names.check_load_dict` (messages abstracted to their content). -/
inductive Err where
  | unknownKey : PyVal → Err
  | unknownSubkey : PyVal → Err
  | badBoolVal : PyVal → PyVal → Err
  | badPrimary : PyVal → Err
  | unknownFeatSubkey : PyVal → PyVal → Err
  | badFeatList : PyVal → PyVal → PyVal → Err
  | badPrepare : PyVal → Err

/-- `Names.load_dict_keys = {'features', 'xmlids', 'primary', 'prepare'}`. -/
def load_dict_keys : List Str :=
  [("features".toList), ("xmlids".toList), ("primary".toList), ("prepare".toList)]

/-- `Names.load_dict_subkeys = {'node', 'edge'}`. -/
def load_dict_subkeys : List Str := [("node".toList), ("edge".toList)]

/-- Run a collecting check over a list, concatenating the collected errors;
`none` (an uncaught Python exception) aborts and discards everything. -/
def collectOpt {α : Type} (f : α → Option (List Err)) : List α → Option (List Err)
  | [] => some []
  | x :: xs =>
    match f x with
    | none => none
    | some es =>
      match collectOpt f xs with
      | none => none
      | some es2 => some (es ++ es2)

/-- The `xmlids` sub-loop body of `check_load_dict` for one iterated
`(subkey, load_dict['xmlids'][subkey])` pair.  The membership test
`val not in {False, True}` raises `TypeError` (`none`) when the value is
unhashable. -/
def checkXmlidsItem (item : PyVal × Option PyVal) : Option (List Err) :=
  if !(load_dict_subkeys.any (fun s => pyEqStr item.1 s)) then
    some [Err.unknownSubkey item.1]
  else
    match item.2 with
    | none => none
    | some v =>
      match inKindTypes v with
      | none => none
      | some b => if !b then some [Err.badBoolVal item.1 v] else some []

/-- The `features` innermost-loop body of `check_load_dict` for one iterated
`(subkey, load_dict['features'][namespace][subkey])` pair. -/
def checkFeatItem (ns : PyVal) (item : PyVal × Option PyVal) : Option (List Err) :=
  if !(load_dict_subkeys.any (fun s => pyEqStr item.1 s)) then
    some [Err.unknownFeatSubkey ns item.1]
  else
    match item.2 with
    | none => none
    | some v =>
      match v with
      | .list _ => some []
      | _ => some [Err.badFeatList ns item.1 v]

/-- The `features` per-namespace body: subscript `load_dict['features']` by
the iterated namespace, then iterate the result. -/
def checkFeatNs (nsp : PyVal × Option PyVal) : Option (List Err) :=
  match nsp.2 with
  | none => none
  | some nsval =>
    match pyItems nsval with
    | none => none
    | some items => collectOpt (fun it => checkFeatItem nsp.1 it) items

/-- The top-level loop body of `check_load_dict` for one `(key, value)`
entry of the load dict. -/
def checkEntry (kv : PyVal × PyVal) : Option (List Err) :=
  if !(load_dict_keys.any (fun s => pyEqStr kv.1 s)) then
    some [Err.unknownKey kv.1]
  else if pyEqStr kv.1 ("xmlids".toList) then
    match pyItems kv.2 with
    | none => none
    | some items => collectOpt checkXmlidsItem items
  else if pyEqStr kv.1 ("primary".toList) then
    match inKindTypes kv.2 with
    | none => none
    | some b => if !b then some [Err.badPrimary kv.2] else some []
  else if pyEqStr kv.1 ("features".toList) then
    match pyItems kv.2 with
    | none => none
    | some nss => collectOpt checkFeatNs nss
  else if pyEqStr kv.1 ("prepare".toList) then
    match kv.2 with
    | .odict _ => some []
    | _ => some [Err.badPrepare kv.2]
  else some []

/-- `Names.check_load_dict`.  `some []`: the function returns silently;
`some errs` with `errs ≠ []`: it raises one `FabricError` whose message
joins exactly the messages in `errs`; `none`: it raises an uncaught
exception (a `TypeError` while iterating a non-iterable section, or while
hashing an unhashable value in `val not in {False, True}`) and no
aggregated report is produced.  The keys probed against `load_dict_keys`
and `load_dict_subkeys` are keys of Python dicts (or elements of the
iterated value), and keys of a Python dict are necessarily hashable, so
the only hash failures a real run can hit are on the probed *values*,
which `inKindTypes` models. -/
def check_load_dict (ld : List (PyVal × PyVal)) : Option (List Err) :=
  collectOpt checkEntry ld

/-- A mapping value (`dict` or `OrderedDict`). -/
def isMappingVal : PyVal → Bool
  | .dict _ => true
  | .odict _ => true
  | _ => false

/-- All values one level inside a mapping are themselves mappings. -/
def innerMappings : PyVal → Bool
  | .dict l => l.all (fun p => isMappingVal p.2)
  | .odict l => l.all (fun p => isMappingVal p.2)
  | _ => false

/-- The iterated sections of a load dict are all bound to mappings. -/
def sectionsOk (ld : List (PyVal × PyVal)) : Bool :=
  ld.all (fun kv =>
    (!(pyEqStr kv.1 ("xmlids".toList)) || isMappingVal kv.2) &&
    (!(pyEqStr kv.1 ("features".toList)) || (isMappingVal kv.2 && innerMappings kv.2)))

/-- Inside a mapping bound to `xmlids`, every value under a `node`/`edge`
key is hashable (values under other keys are reported as unknown subkeys
before any membership probe, so they may be anything). -/
def xmlidsHashOk : PyVal → Bool
  | .dict l => l.all (fun p =>
      !(load_dict_subkeys.any (fun s => pyEqStr p.1 s)) || pyHashable p.2)
  | .odict l => l.all (fun p =>
      !(load_dict_subkeys.any (fun s => pyEqStr p.1 s)) || pyHashable p.2)
  | _ => true

/-- The values the validator probes against `{False, True}` are hashable:
the value bound to `primary`, and the `node`/`edge` values inside a
mapping bound to `xmlids`. -/
def probesHashable (ld : List (PyVal × PyVal)) : Bool :=
  ld.all (fun kv =>
    (!(pyEqStr kv.1 ("primary".toList)) || pyHashable kv.2) &&
    (!(pyEqStr kv.1 ("xmlids".toList)) || xmlidsHashOk kv.2))

/-- Modelled from the spec: the value of one `features` namespace must be a
mapping (a `dict` or an `OrderedDict`) from `node`/`edge` to sequences. -/
def specNsVal (v : PyVal) : Bool :=
  match v with
  | PyVal.dict l2 => l2.all (fun q =>
      (pyEqStr q.1 ("node".toList) || pyEqStr q.1 ("edge".toList)) &&
      (match q.2 with | PyVal.list _ => true | _ => false))
  | PyVal.odict l2 => l2.all (fun q =>
      (pyEqStr q.1 ("node".toList) || pyEqStr q.1 ("edge".toList)) &&
      (match q.2 with | PyVal.list _ => true | _ => false))
  | _ => false

/-- Modelled from the spec (§3 Load Specification, §4.3 validation rules),
for comparison with `check_load_dict`: a load specification is valid when
every top-level key is one of the four recognized sections, `xmlids` maps
`node`/`edge` keys to booleans, `primary` is a boolean, `features` maps
namespaces to mappings from `node`/`edge` to sequences, and `prepare` is an
ordered mapping. -/
def specValidEntry (kv : PyVal × PyVal) : Bool :=
  (pyEqStr kv.1 ("primary".toList) &&
    (match kv.2 with | .bool _ => true | _ => false)) ||
  (pyEqStr kv.1 ("xmlids".toList) &&
    (match kv.2 with
     | .dict l => l.all (fun p =>
         (pyEqStr p.1 ("node".toList) || pyEqStr p.1 ("edge".toList)) &&
         (match p.2 with | PyVal.bool _ => true | _ => false))
     | .odict l => l.all (fun p =>
         (pyEqStr p.1 ("node".toList) || pyEqStr p.1 ("edge".toList)) &&
         (match p.2 with | PyVal.bool _ => true | _ => false))
     | _ => false)) ||
  (pyEqStr kv.1 ("features".toList) &&
    (match kv.2 with
     | .dict l => l.all (fun p => specNsVal p.2)
     | .odict l => l.all (fun p => specNsVal p.2)
     | _ => false)) ||
  (pyEqStr kv.1 ("prepare".toList) &&
    (match kv.2 with | .odict _ => true | _ => false))

/-- Modelled from the spec: validity of a whole load specification. -/
def specValid (ld : List (PyVal × PyVal)) : Bool := ld.all specValidEntry

/-- The errors a crash-free run of the validator collects: concatenation of
every entry's contribution, in order. -/
def catErrs {α : Type} (f : α → Option (List Err)) : List α → List Err
  | [] => []
  | x :: xs => (f x).getD [] ++ catErrs f xs

/-- Shape of the pre-`'('` part of a key as needed by `dinfo`: exactly four
characters, the second (the group) not `'T'`.  Every key of the shipped
catalog satisfies this. -/
def PfxOk (dkey : Str) : Prop :=
  (dkey.takeWhile (fun a => a ≠ '(')).length = 4 ∧
  (dkey.takeWhile (fun a => a ≠ '(')).get? 1 ≠ some 'T'

instance (dkey : Str) : Decidable (PfxOk dkey) := by
  unfold PfxOk
  infer_instance

/-- Invariant of every pair the first loop of `request_files` stores:
the value is `dinfo` of the key, and its `is_derived_only` field records
whether the key's first character (its origin) is `'z'`. -/
def GoodPair (env : Env) (p : Str × DInfoT) : Prop :=
  dinfo env p.1 = some p.2 ∧
  p.2.derivedOnly = some (decide (p.1.head? = some 'z'))

/-- A concrete environment holding the main compiled directory. -/
def wEnvM : Env := [(("m_compiled_dir".toList), ("/m".toList))]

/-- A concrete environment holding the main and derived compiled directories. -/
def wEnvZ : Env :=
  [(("m_compiled_dir".toList), ("/m".toList)),
   (("z_compiled_dir".toList), ("/z".toList))]

/-- A concrete requirement mapping asking for the node feature `a`. -/
def wReqF : List (Str × Req) := [(("mFn0".toList), Req.comps [[("a".toList)]])]

/-- The resolution of `wReqF` under `wEnvM`. -/
def wInfoFa : DInfoT :=
  ⟨some false, some ("/m".toList), some ("Fn0(a)".toList), some ("dct".toList), some false⟩

/-- The resolved state produced by `request_files` for `wReqF` under `wEnvM`. -/
def wStF : List (Str × DInfoT) := [(("mFn0(a)".toList), wInfoFa)]

/-- A concrete requirement mapping also requesting the derived-origin
(`z`) graph items. -/
def wReqZ : List (Str × Req) :=
  [(("zG00".toList), Req.bool true), (("mFn0".toList), Req.comps [[("a".toList)]])]

/-- The resolved state for `wReqZ` under `wEnvZ`: it contains two keys of
origin `z`, both marked derived-only. -/
def wStZ : List (Str × DInfoT) :=
  [(("mFn0(a)".toList), wInfoFa),
   (("zG00(node_sort)".toList),
    ⟨some true, some ("/z".toList), some ("G00(node_sort)".toList),
     some ("arr".toList), some true⟩),
   (("zG00(node_sort_inv)".toList),
    ⟨some true, some ("/z".toList), some ("G00(node_sort_inv)".toList),
     some ("dct".toList), some true⟩)]

/-- A prior state holding `mFn0(a)` resolved against a different location,
so a new resolution both clears and reloads it. -/
def wOldX : List (Str × DInfoT) :=
  [(("mFn0(a)".toList),
    ⟨some false, some ("/x".toList), some ("Fn0(a)".toList),
     some ("dct".toList), some false⟩)]

/-! ### Lemmas about the string primitives -/

theorem splitAll_cons (sep c : Char) (rest : Str) :
    splitAll sep (c :: rest) =
      (match splitAll sep rest with
       | [] => [[c]]
       | h :: t => if c = sep then [] :: h :: t else (c :: h) :: t) := rfl

theorem splitAll_ne_nil (sep : Char) (s : Str) : splitAll sep s ≠ [] := by
  cases s with
  | nil => simp [splitAll]
  | cons c rest =>
    rw [splitAll_cons]
    cases splitAll sep rest with
    | nil => simp
    | cons h t => by_cases hc : c = sep <;> simp [hc]

theorem splitAll_head (sep : Char) (s : Str) :
    (splitAll sep s).head? = some (s.takeWhile (fun a => a ≠ sep)) := by
  induction s with
  | nil => simp [splitAll]
  | cons c rest ih =>
    simp only [splitAll]
    cases h : splitAll sep rest with
    | nil => exact absurd h (splitAll_ne_nil sep rest)
    | cons h0 t =>
      rw [h] at ih
      simp only [List.head?] at ih
      by_cases hc : c = sep
      · simp [hc, List.takeWhile_cons]
      · simp only [if_neg hc, List.head?, List.takeWhile_cons, Option.some.injEq] at *
        simp [hc, ih]

theorem splitAll_singleton (sep : Char) (s x : Str) (h : splitAll sep s = [x]) :
    sep ∉ s ∧ x = s := by
  induction s generalizing x with
  | nil =>
    simp only [splitAll, List.cons.injEq] at h
    simp [h.1.symm]
  | cons c rest ih =>
    rw [splitAll_cons] at h
    cases hr : splitAll sep rest with
    | nil => exact absurd hr (splitAll_ne_nil sep rest)
    | cons h0 t =>
      rw [hr] at h
      have h2 : (if c = sep then [] :: h0 :: t else (c :: h0) :: t) = [x] := h
      by_cases hc : c = sep
      · rw [if_pos hc] at h2
        simp at h2
      · rw [if_neg hc] at h2
        simp only [List.cons.injEq] at h2
        obtain ⟨hx, ht⟩ := h2
        subst ht
        obtain ⟨hm, he⟩ := ih h0 hr
        subst he
        refine ⟨?_, hx.symm⟩
        simp only [List.mem_cons]
        push_neg
        exact ⟨fun hcs => hc hcs.symm, hm⟩

theorem splitAll_of_not_mem (sep : Char) (xs : Str) (h : sep ∉ xs) :
    splitAll sep xs = [xs] := by
  induction xs with
  | nil => simp [splitAll]
  | cons a xs ih =>
    simp only [List.mem_cons] at h
    push_neg at h
    rw [splitAll_cons, ih h.2]
    show (if a = sep then _ else (a :: xs) :: ([] : List Str)) = [a :: xs]
    rw [if_neg (fun he => h.1 he.symm)]

theorem splitAll_append_sep (sep : Char) (xs ys : Str) (h : sep ∉ xs) :
    splitAll sep (xs ++ sep :: ys) = xs :: splitAll sep ys := by
  induction xs with
  | nil =>
    show splitAll sep (sep :: ys) = [] :: splitAll sep ys
    rw [splitAll_cons]
    cases hy : splitAll sep ys with
    | nil => exact absurd hy (splitAll_ne_nil sep ys)
    | cons h0 t => simp
  | cons a xs ih =>
    simp only [List.mem_cons] at h
    push_neg at h
    have hxs := ih h.2
    show splitAll sep (a :: (xs ++ sep :: ys)) = (a :: xs) :: splitAll sep ys
    rw [splitAll_cons, hxs]
    show (if a = sep then _ else (a :: xs) :: splitAll sep ys) = (a :: xs) :: splitAll sep ys
    rw [if_neg (fun he => h.1 he.symm)]

theorem mem_joinSep (sep : Char) (comps : List Str) (a : Char)
    (h : a ∈ joinSep sep comps) : a = sep ∨ ∃ c ∈ comps, a ∈ c := by
  induction comps with
  | nil => simp [joinSep] at h
  | cons x xs ih =>
    cases xs with
    | nil =>
      simp only [joinSep] at h
      exact Or.inr ⟨x, by simp, h⟩
    | cons y ys =>
      simp only [joinSep, List.mem_append, List.mem_cons] at h
      rcases h with hx | hs | hr
      · exact Or.inr ⟨x, by simp, hx⟩
      · exact Or.inl hs
      · rcases ih hr with hsep | ⟨c, hc, hac⟩
        · exact Or.inl hsep
        · exact Or.inr ⟨c, List.mem_cons_of_mem x hc, hac⟩

theorem splitAll_joinSep (sep : Char) (comps : List Str) (hne : comps ≠ [])
    (h : ∀ c ∈ comps, sep ∉ c) : splitAll sep (joinSep sep comps) = comps := by
  induction comps with
  | nil => exact absurd rfl hne
  | cons x xs ih =>
    cases xs with
    | nil => exact splitAll_of_not_mem sep x (h x (by simp))
    | cons y ys =>
      have hx : sep ∉ x := h x (by simp)
      simp only [joinSep]
      rw [splitAll_append_sep sep x _ hx]
      have := ih (by simp) (fun c hc => h c (List.mem_cons_of_mem x hc))
      simp only [joinSep] at this
      rw [this]

theorem dropWhile_head_ne (c : Char) (l : Str) (h : l.head? ≠ some c) :
    l.dropWhile (fun a => a = c) = l := by
  cases l with
  | nil => simp
  | cons a t =>
    simp only [List.head?, Option.some.injEq, ne_eq] at h
    simp [List.dropWhile_cons, h]

theorem rstripChar_append_last (s : Str) (h : s.getLast? ≠ some ')') :
    rstripChar ')' (s ++ [')']) = s := by
  unfold rstripChar
  rw [List.reverse_append]
  simp only [List.reverse_cons, List.reverse_nil, List.nil_append, List.singleton_append,
    List.dropWhile_cons]
  rw [if_pos (by simp)]
  rw [dropWhile_head_ne _ _ (by rwa [List.head?_reverse])]
  exact List.reverse_reverse s

theorem getLast?_append_ne {α : Type} (l₁ l₂ : List α) (h : l₂ ≠ []) :
    (l₁ ++ l₂).getLast? = l₂.getLast? := by
  rw [List.getLast?_append]
  cases hz : l₂.getLast? with
  | none =>
    exact absurd (List.getLast?_eq_none_iff.mp hz) h
  | some z => rfl

theorem joinSep_getLast_ne (sep c : Char) (hsc : sep ≠ c) (comps : List Str)
    (hne : comps ≠ []) (h : ∀ x, comps.getLast? = some x → x.getLast? ≠ some c) :
    (joinSep sep comps).getLast? ≠ some c := by
  induction comps with
  | nil => exact absurd rfl hne
  | cons x xs ih =>
    cases xs with
    | nil => exact h x (by simp)
    | cons y ys =>
      have hlast : ∀ z, (y :: ys).getLast? = some z → z.getLast? ≠ some c := by
        intro z hz
        apply h z
        rwa [List.getLast?_cons_cons]
      have ihr := ih (by simp) hlast
      show (x ++ sep :: joinSep sep (y :: ys)).getLast? ≠ some c
      rw [getLast?_append_ne x _ (by simp)]
      cases hj : joinSep sep (y :: ys) with
      | nil =>
        intro hcon
        simp only [List.getLast?_singleton, Option.some.injEq] at hcon
        exact hsc hcon
      | cons j js =>
        rw [List.getLast?_cons_cons]
        rw [hj] at ihr
        exact ihr

theorem takeWhile_all (p : Char → Bool) (l : Str) (h : ∀ a ∈ l, p a = true) :
    l.takeWhile p = l := by
  induction l with
  | nil => rfl
  | cons a t ih =>
    rw [List.takeWhile_cons, if_pos (h a (by simp))]
    rw [ih (fun b hb => h b (List.mem_cons_of_mem a hb))]

theorem takeWhile_append_sep (sep : Char) (xs ys : Str) :
    ((xs ++ sep :: ys).takeWhile (fun a => a ≠ sep)) =
      xs.takeWhile (fun a => a ≠ sep) := by
  induction xs with
  | nil => simp [List.takeWhile_cons]
  | cons a xs ih =>
    by_cases ha : a = sep
    · simp [List.takeWhile_cons, ha]
    · simp only [List.cons_append, List.takeWhile_cons]
      rw [if_pos (by simpa using ha), if_pos (by simpa using ha), ih]

theorem dropWhile_append_sep (sep : Char) (xs ys : Str) (h : sep ∉ xs) :
    (xs ++ sep :: ys).dropWhile (fun a => a ≠ sep) = sep :: ys := by
  induction xs with
  | nil => simp [List.dropWhile_cons]
  | cons a xs ih =>
    simp only [List.mem_cons] at h
    push_neg at h
    simp only [List.cons_append, List.dropWhile_cons]
    rw [if_pos (by simpa using fun he => h.1 he.symm)]
    exact ih h.2

/-! ### Characterization of the key codec on composed keys -/

theorem decomp_comp (kmin : Str) (comps : List Str) (hk : '(' ∉ kmin) :
    decomp (comp kmin comps) =
      (kmin, '(' :: (joinSep DCOMP_SEP comps ++ [')'])) := by
  unfold decomp comp
  rw [dropWhile_append_sep '(' kmin _ hk]
  rw [takeWhile_append_sep '(' kmin _]
  rw [takeWhile_all _ kmin ?hall]
  case hall =>
    intro a ha
    simp only [ne_eq, decide_eq_true_eq]
    intro he
    exact hk (he ▸ ha)

theorem mem_comp_suffix (comps : List Str) (a : Char)
    (ha : a ∈ joinSep DCOMP_SEP comps ++ [')']) : a = DCOMP_SEP ∨ a = ')' ∨
      ∃ c ∈ comps, a ∈ c := by
  rcases List.mem_append.mp ha with hj | hp
  · rcases mem_joinSep DCOMP_SEP comps a hj with hs | hcm
    · exact Or.inl hs
    · exact Or.inr (Or.inr hcm)
  · exact Or.inr (Or.inl (by simpa using hp))

theorem decomp_full_comp (kmin : Str) (comps : List Str)
    (hk : '(' ∉ kmin) (hne : comps ≠ [])
    (hc : ∀ c ∈ comps, DCOMP_SEP ∉ c ∧ '(' ∉ c)
    (hlast : ((comps.getLast?.getD []).getLast? ≠ some ')')) :
    decomp_full (comp kmin comps) = some (kmin, comps) := by
  have hnotin : '(' ∉ joinSep DCOMP_SEP comps ++ [')'] := by
    intro hmem
    rcases mem_comp_suffix comps '(' hmem with h1 | h2 | ⟨c, hcc, hac⟩
    · exact absurd h1 (by decide)
    · exact absurd h2 (by decide)
    · exact (hc c hcc).2 hac
  unfold decomp_full comp
  rw [splitAll_append_sep '(' kmin _ hk]
  rw [splitAll_of_not_mem '(' _ hnotin]
  show some (kmin, splitAll DCOMP_SEP (rstripChar ')' (joinSep DCOMP_SEP comps ++ [')']))) =
    some (kmin, comps)
  rw [rstripChar_append_last _ (by
    apply joinSep_getLast_ne DCOMP_SEP ')' (by decide) comps hne
    intro x hx
    rw [hx] at hlast
    simpa using hlast)]
  rw [splitAll_joinSep DCOMP_SEP comps hne (fun c hcc => (hc c hcc).1)]

theorem decomp_full_none_iff (k : Str) : decomp_full k = none ↔ '(' ∉ k := by
  unfold decomp_full
  cases hs : splitAll '(' k with
  | nil => exact absurd hs (splitAll_ne_nil '(' k)
  | cons p0 t =>
    cases t with
    | nil =>
      obtain ⟨hnm, _⟩ := splitAll_singleton '(' k p0 hs
      simpa using hnm
    | cons p1 t2 =>
      constructor
      · intro hcon
        simp at hcon
      · intro hnm
        rw [splitAll_of_not_mem '(' k hnm] at hs
        simp at hs

theorem decomp_full_some_pfx (k : Str) (p0 : Str) (cs : List Str)
    (h : decomp_full k = some (p0, cs)) :
    p0 = k.takeWhile (fun a => a ≠ '(') := by
  unfold decomp_full at h
  cases hs : splitAll '(' k with
  | nil => exact absurd hs (splitAll_ne_nil '(' k)
  | cons q0 t =>
    rw [hs] at h
    cases t with
    | nil => simp at h
    | cons q1 t2 =>
      simp only [Option.some.injEq, Prod.mk.injEq] at h
      have hq : q0 = k.takeWhile (fun a => a ≠ '(') := by
        have := splitAll_head '(' k
        rw [hs] at this
        simpa using this
      rw [← h.1, hq]

/-- C2, counterexample.  The claim asserts that decomposition inverts
composition "including for an empty component list and for components
containing the separator character".  Both fail on the code: composing
`mG00` with no components yields `mG00()`, which decomposes to the
one-element component list `[""]`, not to `[]`; and composing `mFn0` with
the single component `a,b` yields `mFn0(a,b)`, which decomposes to the two
components `a` and `b`, not to the original one. -/
theorem names_c2_cex :
    decomp_full (comp ("mG00".toList) []) = some (("mG00".toList), [[]]) ∧
    ¬ ([[]] : List Str) = [] ∧
    decomp_full (comp ("mFn0".toList) [("a,b".toList)]) =
      some (("mFn0".toList), [("a".toList), ("b".toList)]) ∧
    ¬ [("a".toList), ("b".toList)] = [("a,b".toList)] := by
  refine ⟨by decide, by decide, by decide, by decide⟩

/-- C2, amended: for every four-character minimal key free of `'('` and
every *nonempty* component list whose components contain neither the
separator `','` nor `'('`, and whose last component does not end in `')'`,
`decomp` followed by `decomp_full` (with its five-way destructuring)
recovers exactly the original (origin, group, kind, direction, components)
tuple.  (The empty component list and separator-containing components,
which the claim also covered, do not round-trip: see the counterexample.) -/
theorem names_c2 (kmin : Str) (comps : List Str) (o g k d : Char)
    (hmin : kmin = [o, g, k, d]) (hk : '(' ∉ kmin) (hne : comps ≠ [])
    (hc : ∀ c ∈ comps, DCOMP_SEP ∉ c ∧ '(' ∉ c)
    (hlast : ((comps.getLast?.getD []).getLast? ≠ some ')')) :
    decomp (comp kmin comps) = (kmin, '(' :: (joinSep DCOMP_SEP comps ++ [')'])) ∧
    decomp_full (comp kmin comps) = some (kmin, comps) ∧
    decomp_full5 (comp kmin comps) = some (o, g, k, d, comps) := by
  have hfull := decomp_full_comp kmin comps hk hne hc hlast
  refine ⟨decomp_comp kmin comps hk, hfull, ?_⟩
  unfold decomp_full5
  rw [hfull, hmin]

/-- C2, witness: the amended round-trip at the concrete key `mFn0` with
components `("laf", "", "y")` (which include an empty middle component). -/
theorem names_c2_w :
    decomp_full5 (comp ("mFn0".toList) [("laf".toList), [], ("y".toList)]) =
      some ('m', 'F', 'n', '0', [("laf".toList), [], ("y".toList)]) :=
  (names_c2 ("mFn0".toList) [("laf".toList), [], ("y".toList)] 'm' 'F' 'n' '0'
    (by decide) (by decide) (by decide) (by decide) (by decide)).2.2

/-- C9, counterexample.  The claim asserts `decomp_full` fails on every key
with an unterminated component list; but on `mG00(a`, whose list is
unterminated (the key contains no `')'`), decomposition succeeds and
returns the parsed fields. -/
theorem names_c9_cex :
    decomp_full5 ("mG00(a".toList) = some ('m', 'G', '0', '0', [("a".toList)]) ∧
    ')' ∉ "mG00(a".toList := by
  refine ⟨by decide, by decide⟩

/-- C9, amended: `decomp_full` raises exactly when the key contains no
`'('` at all, and its five-way destructuring (performed at every call
site) additionally raises exactly when the prefix before the first `'('`
does not have exactly 4 characters; on every well-formed key the prefix is
split into the four single-character fields.  An unterminated component
list does *not* make it fail: trailing `')'` characters are merely
stripped. -/
theorem names_c9 (k : Str) :
    (decomp_full k = none ↔ '(' ∉ k) ∧
    (decomp_full5 k = none ↔
      ('(' ∉ k ∨ ¬ (k.takeWhile (fun a => a ≠ '(')).length = 4)) ∧
    (∀ o g ki d comps, decomp_full5 k = some (o, g, ki, d, comps) →
      k.takeWhile (fun a => a ≠ '(') = [o, g, ki, d]) := by
  refine ⟨decomp_full_none_iff k, ?_, ?_⟩
  · unfold decomp_full5
    cases hf : decomp_full k with
    | none =>
      have hk := (decomp_full_none_iff k).mp hf
      simp [hk]
    | some pr =>
      obtain ⟨p0, cs⟩ := pr
      have hp0 := decomp_full_some_pfx k p0 cs hf
      have hkin : '(' ∈ k := by
        by_contra hnm
        rw [(decomp_full_none_iff k).mpr hnm] at hf
        exact Option.noConfusion hf
      rw [← hp0]
      rcases p0 with _ | ⟨a, _ | ⟨b, _ | ⟨c, _ | ⟨d, _ | ⟨e, rest⟩⟩⟩⟩⟩ <;>
        simp [hkin]
  · intro o g ki d comps h5
    unfold decomp_full5 at h5
    cases hf : decomp_full k with
    | none => rw [hf] at h5; exact Option.noConfusion h5
    | some pr =>
      obtain ⟨p0, cs⟩ := pr
      rw [hf] at h5
      have hp0 := decomp_full_some_pfx k p0 cs hf
      rcases p0 with _ | ⟨a, _ | ⟨b, _ | ⟨c, _ | ⟨dd, _ | ⟨e, rest⟩⟩⟩⟩⟩ <;>
        simp_all

/-- C9, witness: the amended statement applied at the concrete key
`mG00(a,b)`. -/
theorem names_c9_w :
    "mG00(a,b)".toList.takeWhile (fun a => a ≠ '(') = ['m', 'G', '0', '0'] :=
  (names_c9 ("mG00(a,b)".toList)).2.2 'm' 'G' '0' '0' [("a".toList), ("b".toList)]
    (by decide)

/-! ### Lemmas about association lists (Python ordered dicts) -/

theorem lookupA_mem {β : Type} (items : List (Str × β)) (k : Str) (v : β)
    (h : lookupA items k = some v) : (k, v) ∈ items := by
  induction items with
  | nil => simp [lookupA] at h
  | cons p ps ih =>
    rw [lookupA] at h
    by_cases hp : p.1 = k
    · rw [if_pos hp] at h
      have hpe : p = (k, v) := by
        obtain ⟨p1, p2⟩ := p
        simp only at hp
        simp only [Option.some.injEq] at h
        rw [hp, h]
      rw [← hpe]
      exact List.mem_cons_self p ps
    · rw [if_neg hp] at h
      exact List.mem_cons_of_mem p (ih h)

theorem lookupA_none_iff {β : Type} (items : List (Str × β)) (k : Str) :
    lookupA items k = none ↔ k ∉ items.map Prod.fst := by
  induction items with
  | nil => simp [lookupA]
  | cons p ps ih =>
    rw [lookupA]
    by_cases hp : p.1 = k
    · rw [if_pos hp]
      constructor
      · intro hcon
        exact absurd hcon (by simp)
      · intro hn
        exfalso
        apply hn
        rw [List.map_cons]
        exact List.mem_cons.mpr (Or.inl hp.symm)
    · rw [if_neg hp]
      simp only [List.map_cons, List.mem_cons]
      rw [ih]
      constructor
      · intro hn hor
        exact hor.elim (fun he => hp he.symm) hn
      · intro hn
        exact fun hm => hn (Or.inr hm)

theorem lookupA_of_mem_nodup {β : Type} (items : List (Str × β)) (k : Str) (v : β)
    (hn : (items.map Prod.fst).Nodup) (h : (k, v) ∈ items) :
    lookupA items k = some v := by
  induction items with
  | nil => simp at h
  | cons p ps ih =>
    simp only [List.map_cons, List.nodup_cons] at hn
    rcases List.mem_cons.mp h with he | hm
    · rw [← he, lookupA, if_pos rfl]
    · rw [lookupA]
      by_cases hp : p.1 = k
      · exfalso
        apply hn.1
        rw [hp]
        exact List.mem_map_of_mem Prod.fst hm
      · rw [if_neg hp]
        exact ih hn.2 hm

theorem odInsert_map_fst {β : Type} (items : List (Str × β)) (k : Str) (v : β) :
    (odInsert items k v).map Prod.fst =
      (match lookupA items k with
       | some _ => items.map Prod.fst
       | none => items.map Prod.fst ++ [k]) := by
  unfold odInsert
  cases lookupA items k with
  | none => simp
  | some w =>
    simp only [List.map_map]
    apply List.map_congr_left
    intro p _
    by_cases hp : p.1 = k
    · simp [hp]
    · simp [hp]

theorem odInsert_mem_fst_iff {β : Type} (items : List (Str × β)) (k : Str) (v : β)
    (k' : Str) : k' ∈ (odInsert items k v).map Prod.fst ↔
      (k' ∈ items.map Prod.fst ∨ k' = k) := by
  rw [odInsert_map_fst]
  cases hl : lookupA items k with
  | none =>
    simp only [List.mem_append, List.mem_singleton]
  | some w =>
    have hk : k ∈ items.map Prod.fst := List.mem_map_of_mem Prod.fst (lookupA_mem items k w hl)
    constructor
    · exact fun h => Or.inl h
    · intro h
      rcases h with h | h
      · exact h
      · rw [h]; exact hk

theorem odInsert_nodup {β : Type} (items : List (Str × β)) (k : Str) (v : β)
    (hn : (items.map Prod.fst).Nodup) : ((odInsert items k v).map Prod.fst).Nodup := by
  rw [odInsert_map_fst]
  cases hl : lookupA items k with
  | none =>
    have hk : k ∉ items.map Prod.fst := (lookupA_none_iff items k).mp hl
    simp [List.nodup_append, hn, hk]
  | some w => exact hn

theorem odInsert_all {β : Type} (P : Str × β → Prop) (items : List (Str × β))
    (k : Str) (v : β) (hall : ∀ p ∈ items, P p) (hkv : P (k, v)) :
    ∀ p ∈ odInsert items k v, P p := by
  intro p hp
  unfold odInsert at hp
  cases hl : lookupA items k with
  | none =>
    rw [hl] at hp
    have hp2 : p ∈ items ++ [(k, v)] := hp
    rcases List.mem_append.mp hp2 with hm | hm
    · exact hall p hm
    · rw [List.mem_singleton.mp hm]; exact hkv
  | some w =>
    rw [hl] at hp
    have hp2 : p ∈ items.map (fun q => if q.1 = k then (k, v) else q) := hp
    rcases List.mem_map.mp hp2 with ⟨q, hq, hqe⟩
    by_cases hq1 : q.1 = k
    · rw [if_pos hq1] at hqe
      rw [← hqe]; exact hkv
    · rw [if_neg hq1] at hqe
      rw [← hqe]; exact hall q hq

theorem mem_map_fst_filter {β : Type} (l : List (Str × β)) (f : Str × β → Bool)
    (k : Str) : k ∈ (l.filter f).map Prod.fst ↔ ∃ v, (k, v) ∈ l ∧ f (k, v) = true := by
  constructor
  · intro h
    rcases List.mem_map.mp h with ⟨p, hp, hpe⟩
    rcases List.mem_filter.mp hp with ⟨hm, hf⟩
    exact ⟨p.2, by rwa [show (k, p.2) = p from by rw [← hpe]], by rwa [show (k, p.2) = p from by rw [← hpe]]⟩
  · intro ⟨v, hm, hf⟩
    exact List.mem_map.mpr ⟨(k, v), List.mem_filter.mpr ⟨hm, hf⟩, rfl⟩

/-! ### Shape facts about `dinfo` and the resolution loop -/

theorem decomp_full5_pfx (k : Str) (o g ki d : Char) (comps : List Str)
    (h : decomp_full5 k = some (o, g, ki, d, comps)) :
    k.takeWhile (fun a => a ≠ '(') = [o, g, ki, d] := by
  unfold decomp_full5 at h
  cases hf : decomp_full k with
  | none => rw [hf] at h; exact Option.noConfusion h
  | some pr =>
    obtain ⟨p0, cs⟩ := pr
    rw [hf] at h
    have hp0 := decomp_full_some_pfx k p0 cs hf
    rcases p0 with _ | ⟨a, _ | ⟨b, _ | ⟨c, _ | ⟨dd, _ | ⟨e, rest⟩⟩⟩⟩⟩ <;> simp_all

theorem head_of_takeWhile (p : Char → Bool) (l : Str) (a : Char) (t : Str)
    (h : l.takeWhile p = a :: t) : l.head? = some a := by
  cases l with
  | nil => simp at h
  | cons b rest =>
    rw [List.takeWhile_cons] at h
    by_cases hb : p b = true
    · rw [if_pos hb] at h
      simp only [List.cons.injEq] at h
      simp [h.1]
    · rw [if_neg hb] at h
      exact absurd h (by simp)

theorem takeWhile_comp_pfx (dkey : Str) (c : List Str) :
    (comp dkey c).takeWhile (fun a => a ≠ '(') =
      dkey.takeWhile (fun a => a ≠ '(') :=
  takeWhile_append_sep '(' dkey _

theorem PfxOk_comp (dkey : Str) (c : List Str) (h : PfxOk dkey) :
    PfxOk (comp dkey c) := by
  unfold PfxOk at *
  rw [takeWhile_comp_pfx]
  exact h

theorem catalog_pfx : ∀ dkey ∈ catalogKeys, PfxOk dkey := by decide

theorem dinfoC_cases (cat : List (Str × (Req × Str))) (env : Env) (dkey : Str)
    (v : DInfoT) (h : dinfoC cat env dkey = some v) :
    ∃ req0 dtype, catLookup cat dkey = some (req0, dtype) ∧
    ∃ o g ki d comps, decomp_full5 dkey = some (o, g, ki, d, comps) ∧
      ((g = 'T' ∧ v = DInfoT.nullInfo) ∨
       (¬ g = 'T' ∧ ∃ dloc, lookupA env (compiledDirKey o) = some dloc ∧
         v = ⟨some (decide (¬ g = 'F' ∧ ¬ g = 'C')), some dloc,
              some (comp_file g ki d comps), some dtype, some (decide (o = 'z'))⟩)) := by
  unfold dinfoC at h
  split at h
  · exact Option.noConfusion h
  · rename_i req0 dtype hm
    refine ⟨req0, dtype, hm, ?_⟩
    split at h
    · exact Option.noConfusion h
    · rename_i o g ki d comps h5
      refine ⟨o, g, ki, d, comps, h5, ?_⟩
      split at h
      · rename_i hg
        exact Or.inl ⟨hg, ((Option.some.injEq _ _).mp h).symm⟩
      · rename_i hg
        split at h
        · exact Option.noConfusion h
        · rename_i dloc hel
          exact Or.inr ⟨hg, dloc, hel, ((Option.some.injEq _ _).mp h).symm⟩

theorem dinfo_derived (env : Env) (dkey : Str) (v : DInfoT) (hp : PfxOk dkey)
    (h : dinfo env dkey = some v) :
    v.derivedOnly = some (decide (dkey.head? = some 'z')) := by
  obtain ⟨req0, dtype, hcl, o, g, ki, d, comps, h5, hbr⟩ :=
    dinfoC_cases data_items_def env dkey v h
  have hpfx := decomp_full5_pfx dkey o g ki d comps h5
  have hg : ¬ g = 'T' := by
    obtain ⟨hlen, hT⟩ := hp
    rw [hpfx] at hT
    intro hgg
    exact hT (by simp [hgg])
  rcases hbr with ⟨hgT, _⟩ | ⟨_, dloc, hel, hv⟩
  · exact absurd hgT hg
  · rw [hv]
    have hhead : dkey.head? = some o := head_of_takeWhile _ dkey o _ hpfx
    simp only [DInfoT.derivedOnly, Option.some.injEq]
    rw [hhead]
    simp

theorem resolveComps_good (env : Env) (dkey : Str) (hp : PfxOk dkey) :
    ∀ (cs : List (List Str)) (items st : List (Str × DInfoT)),
    resolveComps env dkey cs items = some st →
    (items.map Prod.fst).Nodup ∧ (∀ p ∈ items, GoodPair env p) →
    (st.map Prod.fst).Nodup ∧ (∀ p ∈ st, GoodPair env p) := by
  intro cs
  induction cs with
  | nil =>
    intro items st h hinv
    simp only [resolveComps, Option.some.injEq] at h
    rw [← h]
    exact hinv
  | cons c cs ih =>
    intro items st h hinv
    simp only [resolveComps] at h
    cases hd : dinfo env (comp dkey c) with
    | none => rw [hd] at h; exact Option.noConfusion h
    | some v =>
      rw [hd] at h
      apply ih _ _ h
      constructor
      · exact odInsert_nodup items _ v hinv.1
      · apply odInsert_all _ items _ v hinv.2
        exact ⟨hd, dinfo_derived env _ v (PfxOk_comp dkey c hp) hd⟩

theorem resolveStep_good (env : Env) (req : List (Str × Req))
    (items : List (Str × DInfoT)) (dkey : Str) (st : List (Str × DInfoT))
    (hp : PfxOk dkey) (h : resolveStep env req items dkey = some st)
    (hinv : (items.map Prod.fst).Nodup ∧ ∀ p ∈ items, GoodPair env p) :
    (st.map Prod.fst).Nodup ∧ ∀ p ∈ st, GoodPair env p := by
  unfold resolveStep at h
  split at h
  · rw [← (Option.some.injEq _ _).mp h]; exact hinv
  · split at h
    · exact Option.noConfusion h
    · rename_i v hd
      rw [← (Option.some.injEq _ _).mp h]
      constructor
      · exact odInsert_nodup items _ v hinv.1
      · apply odInsert_all _ items _ v hinv.2
        exact ⟨hd, dinfo_derived env _ v hp hd⟩
  · rw [← (Option.some.injEq _ _).mp h]; exact hinv
  · rw [← (Option.some.injEq _ _).mp h]; exact hinv
  · rename_i l hl
    exact resolveComps_good env dkey hp l items st h hinv

theorem resolveList_good (env : Env) (req : List (Str × Req)) :
    ∀ (l : List Str), (∀ d ∈ l, PfxOk d) →
    ∀ (items st : List (Str × DInfoT)), resolveList env req l items = some st →
    (items.map Prod.fst).Nodup ∧ (∀ p ∈ items, GoodPair env p) →
    (st.map Prod.fst).Nodup ∧ (∀ p ∈ st, GoodPair env p) := by
  intro l
  induction l with
  | nil =>
    intro _ items st h hinv
    simp only [resolveList, Option.some.injEq] at h
    rw [← h]
    exact hinv
  | cons dkey rest ih =>
    intro hpl items st h hinv
    simp only [resolveList] at h
    cases hs : resolveStep env req items dkey with
    | none => rw [hs] at h; exact Option.noConfusion h
    | some mid =>
      rw [hs] at h
      apply ih (fun d hd => hpl d (List.mem_cons_of_mem dkey hd)) mid st h
      exact resolveStep_good env req items dkey mid (hpl dkey (by simp)) hs hinv

theorem resolveReq_good (env : Env) (req : List (Str × Req))
    (st : List (Str × DInfoT)) (h : resolveReq env req = some st) :
    (st.map Prod.fst).Nodup ∧ ∀ p ∈ st, GoodPair env p := by
  apply resolveList_good env req catalogKeys catalog_pfx [] st h
  constructor
  · simp
  · intro p hp
    simp at hp

theorem resolveComps_keys (env : Env) (dkey : Str) :
    ∀ (cs : List (List Str)) (items st : List (Str × DInfoT)),
    resolveComps env dkey cs items = some st → ∀ k,
    (k ∈ st.map Prod.fst ↔
      k ∈ items.map Prod.fst ∨ k ∈ cs.map (fun c => comp dkey c)) := by
  intro cs
  induction cs with
  | nil =>
    intro items st h k
    simp only [resolveComps, Option.some.injEq] at h
    rw [← h]
    simp
  | cons c cs ih =>
    intro items st h k
    simp only [resolveComps] at h
    cases hd : dinfo env (comp dkey c) with
    | none => rw [hd] at h; exact Option.noConfusion h
    | some v =>
      rw [hd] at h
      rw [ih _ _ h k]
      rw [odInsert_mem_fst_iff items _ v k]
      simp only [List.map_cons, List.mem_cons]
      tauto

theorem resolveStep_keys (env : Env) (req : List (Str × Req))
    (items : List (Str × DInfoT)) (dkey : Str) (st : List (Str × DInfoT))
    (h : resolveStep env req items dkey = some st) (k : Str) :
    k ∈ st.map Prod.fst ↔ k ∈ items.map Prod.fst ∨ k ∈ entryEmits req dkey := by
  unfold resolveStep at h
  split at h
  · rename_i harm
    rw [← (Option.some.injEq _ _).mp h]
    simp [entryEmits, harm]
  · rename_i harm
    split at h
    · exact Option.noConfusion h
    · rename_i v hd
      rw [← (Option.some.injEq _ _).mp h]
      rw [odInsert_mem_fst_iff items dkey v k]
      simp [entryEmits, harm]
  · rename_i harm
    rw [← (Option.some.injEq _ _).mp h]
    simp [entryEmits, harm]
  · rename_i harm
    rw [← (Option.some.injEq _ _).mp h]
    simp [entryEmits, harm]
  · rename_i l harm
    rw [resolveComps_keys env dkey l items st h k]
    simp [entryEmits, harm]

theorem resolveList_keys (env : Env) (req : List (Str × Req)) :
    ∀ (l : List Str) (items st : List (Str × DInfoT)),
    resolveList env req l items = some st → ∀ k,
    (k ∈ st.map Prod.fst ↔
      k ∈ items.map Prod.fst ∨ ∃ d ∈ l, k ∈ entryEmits req d) := by
  intro l
  induction l with
  | nil =>
    intro items st h k
    simp only [resolveList, Option.some.injEq] at h
    rw [← h]
    simp
  | cons dkey rest ih =>
    intro items st h k
    simp only [resolveList] at h
    cases hs : resolveStep env req items dkey with
    | none => rw [hs] at h; exact Option.noConfusion h
    | some mid =>
      rw [hs] at h
      rw [ih mid st h k, resolveStep_keys env req items dkey mid hs k]
      simp only [List.mem_cons]
      constructor
      · rintro ((hi | he) | ⟨d, hd, hke⟩)
        · exact Or.inl hi
        · exact Or.inr ⟨dkey, Or.inl rfl, he⟩
        · exact Or.inr ⟨d, Or.inr hd, hke⟩
      · rintro (hi | ⟨d, hd | hd, hke⟩)
        · exact Or.inl (Or.inl hi)
        · exact Or.inl (Or.inr (hd ▸ hke))
        · exact Or.inr ⟨d, hd, hke⟩

/-! ### The clear/keep/load partition -/

theorem mem_clear_iff (oldItems newItems : List (Str × DInfoT)) (k : Str)
    (hold : (oldItems.map Prod.fst).Nodup) :
    k ∈ (partitionKeys oldItems newItems).1 ↔
      ∃ v, lookupA oldItems k = some v ∧ ¬ lookupA newItems k = some v := by
  show k ∈ (oldItems.filter (clearCond newItems)).map Prod.fst ↔ _
  rw [mem_map_fst_filter]
  constructor
  · rintro ⟨v, hm, hc⟩
    refine ⟨v, lookupA_of_mem_nodup oldItems k v hold hm, ?_⟩
    unfold clearCond at hc
    cases hn : lookupA newItems k with
    | none => simp
    | some v2 =>
      rw [hn] at hc
      have h2 : decide (¬ v2 = v) = true := hc
      intro hcon
      exact (of_decide_eq_true h2) ((Option.some.injEq _ _).mp hcon)
  · rintro ⟨v, hl, hn⟩
    refine ⟨v, lookupA_mem oldItems k v hl, ?_⟩
    unfold clearCond
    cases hn2 : lookupA newItems k with
    | none => rfl
    | some v2 =>
      show decide (¬ v2 = v) = true
      apply decide_eq_true
      intro hcon
      exact hn (by rw [hn2, hcon])

theorem mem_keep_iff (oldItems newItems : List (Str × DInfoT)) (k : Str)
    (hnew : (newItems.map Prod.fst).Nodup) :
    k ∈ (partitionKeys oldItems newItems).2.1 ↔
      ∃ v, lookupA newItems k = some v ∧ lookupA oldItems k = some v := by
  show k ∈ (newItems.filter (keepCond oldItems)).map Prod.fst ↔ _
  rw [mem_map_fst_filter]
  constructor
  · rintro ⟨v, hm, hc⟩
    exact ⟨v, lookupA_of_mem_nodup newItems k v hnew hm, of_decide_eq_true hc⟩
  · rintro ⟨v, hln, hlo⟩
    exact ⟨v, lookupA_mem newItems k v hln, decide_eq_true hlo⟩

theorem mem_load_iff (oldItems newItems : List (Str × DInfoT)) (k : Str)
    (hnew : (newItems.map Prod.fst).Nodup) :
    k ∈ (partitionKeys oldItems newItems).2.2 ↔
      ∃ v, lookupA newItems k = some v ∧ ¬ lookupA oldItems k = some v ∧
        lastFalsy v = true := by
  show k ∈ (newItems.filter
      (fun kv => !(keepCond oldItems kv) && lastFalsy kv.2)).map Prod.fst ↔ _
  rw [mem_map_fst_filter]
  constructor
  · rintro ⟨v, hm, hc⟩
    rw [Bool.and_eq_true, Bool.not_eq_true'] at hc
    refine ⟨v, lookupA_of_mem_nodup newItems k v hnew hm, ?_, hc.2⟩
    exact of_decide_eq_false hc.1
  · rintro ⟨v, hln, hno, hlf⟩
    refine ⟨v, lookupA_mem newItems k v hln, ?_⟩
    rw [Bool.and_eq_true, Bool.not_eq_true']
    exact ⟨decide_eq_false hno, hlf⟩

theorem partition_self (st : List (Str × DInfoT)) (h : (st.map Prod.fst).Nodup) :
    partitionKeys st st = ([], st.map Prod.fst, []) := by
  unfold partitionKeys
  have hlk : ∀ kv ∈ st, lookupA st kv.1 = some kv.2 := by
    intro kv hm
    exact lookupA_of_mem_nodup st kv.1 kv.2 h hm
  have h1 : st.filter (clearCond st) = [] := by
    apply List.filter_eq_nil_iff.mpr
    intro kv hm
    unfold clearCond
    rw [hlk kv hm]
    simp
  have h2 : st.filter (keepCond st) = st := by
    apply List.filter_eq_self.mpr
    intro kv hm
    exact decide_eq_true (hlk kv hm)
  have h3 : st.filter (fun kv => !(keepCond st kv) && lastFalsy kv.2) = [] := by
    apply List.filter_eq_nil_iff.mpr
    intro kv hm
    rw [Bool.and_eq_true, Bool.not_eq_true']
    rintro ⟨hcon, _⟩
    have hkt : keepCond st kv = true := decide_eq_true (hlk kv hm)
    exact Bool.noConfusion (hcon.symm.trans hkt)
  rw [h1, h2, h3]
  simp

/-- Extract the resolution underlying a successful `request_files` call. -/
theorem request_files_elim (env : Env) (oldItems : List (Str × DInfoT))
    (req : List (Str × Req)) (res : List Str × List Str × List Str)
    (st : List (Str × DInfoT))
    (h : request_files env oldItems req = some (res, st)) :
    resolveReq env req = some st ∧ res = partitionKeys oldItems st := by
  unfold request_files at h
  cases hr : resolveReq env req with
  | none => rw [hr] at h; exact Option.noConfusion h
  | some newItems =>
    rw [hr] at h
    have h2 := (Option.some.injEq _ _).mp h
    have hres : res = partitionKeys oldItems newItems := (Prod.mk.injEq _ _ _ _).mp h2 |>.1.symm
    have hst : newItems = st := (Prod.mk.injEq _ _ _ _).mp h2 |>.2
    rw [← hst]
    exact ⟨rfl, hres⟩

/-- C1: on every (successful) call of `request_files` against a prior
resolved mapping with unique keys — as every remembered prior resolution
has — `clear` contains exactly the prior keys that are absent from the new
mapping or bound to a different resolution tuple; `keep` contains exactly
the keys present in both mappings with identical tuples; and `load`
contains exactly the new keys not in `keep` whose `is_derived_only` field
is `False`.  Quantifying over an arbitrary prior state subsumes every pair
of successive calls. -/
theorem names_c1 (env : Env) (req : List (Str × Req))
    (oldItems : List (Str × DInfoT)) (res : List Str × List Str × List Str)
    (st : List (Str × DInfoT)) (hold : (oldItems.map Prod.fst).Nodup)
    (h : request_files env oldItems req = some (res, st)) :
    (∀ k, k ∈ res.1 ↔ ∃ v, lookupA oldItems k = some v ∧ ¬ lookupA st k = some v) ∧
    (∀ k, k ∈ res.2.1 ↔ ∃ v, lookupA st k = some v ∧ lookupA oldItems k = some v) ∧
    (∀ k, k ∈ res.2.2 ↔ (¬ k ∈ res.2.1 ∧
        ∃ v, lookupA st k = some v ∧ v.derivedOnly = some false)) := by
  obtain ⟨hr, hres⟩ := request_files_elim env oldItems req res st h
  obtain ⟨hnodup, hgood⟩ := resolveReq_good env req st hr
  subst hres
  refine ⟨fun k => mem_clear_iff oldItems st k hold,
          fun k => mem_keep_iff oldItems st k hnodup, fun k => ?_⟩
  rw [mem_load_iff oldItems st k hnodup]
  constructor
  · rintro ⟨v, hv, hno, hlf⟩
    have hg := hgood (k, v) (lookupA_mem st k v hv)
    have hdf : v.derivedOnly = some false := by
      rw [hg.2]
      unfold lastFalsy at hlf
      rw [Bool.not_eq_true'] at hlf
      rcases hb : decide (k.head? = some 'z') with _ | _
      · rfl
      · exfalso
        apply absurd hlf
        rw [hg.2, hb]
        simp
    refine ⟨?_, v, hv, hdf⟩
    rw [mem_keep_iff oldItems st k hnodup]
    rintro ⟨v', hv', hold'⟩
    have : v' = v := (Option.some.injEq _ _).mp (hv'.symm.trans hv)
    exact hno (this ▸ hold')
  · rintro ⟨hnk, v, hv, hdf⟩
    refine ⟨v, hv, ?_, ?_⟩
    · intro hcon
      apply hnk
      rw [mem_keep_iff oldItems st k hnodup]
      exact ⟨v, hv, hcon⟩
    · unfold lastFalsy
      rw [Bool.not_eq_true']
      apply decide_eq_false
      rw [hdf]
      simp

/-- C1, witness: a resolution of the single feature requirement `mFn0.a`
from the empty prior state; `clear` and `keep` are empty and `load` holds
the one resolved key. -/
theorem names_c1_w :
    (∀ k, k ∈ ([] : List Str) ↔
      ∃ v, lookupA ([] : List (Str × DInfoT)) k = some v ∧ ¬ lookupA wStF k = some v) ∧
    (∀ k, k ∈ ([] : List Str) ↔
      ∃ v, lookupA wStF k = some v ∧ lookupA ([] : List (Str × DInfoT)) k = some v) ∧
    (∀ k, k ∈ [("mFn0(a)".toList)] ↔ (¬ k ∈ ([] : List Str) ∧
      ∃ v, lookupA wStF k = some v ∧ v.derivedOnly = some false)) :=
  names_c1 wEnvM wReqF [] (([], [], [("mFn0(a)".toList)])) wStF (by decide) (by decide)

/-- C10: the `keep` list of a `request_files` call is disjoint from both
`clear` and `load`, while a key present in the prior and the new mapping
with differing resolution tuples and `is_derived_only` false appears in
both `clear` and `load` (discard then reload). -/
theorem names_c10 (env : Env) (req : List (Str × Req))
    (oldItems : List (Str × DInfoT)) (res : List Str × List Str × List Str)
    (st : List (Str × DInfoT)) (hold : (oldItems.map Prod.fst).Nodup)
    (h : request_files env oldItems req = some (res, st)) :
    (∀ k, k ∈ res.2.1 → ¬ k ∈ res.1 ∧ ¬ k ∈ res.2.2) ∧
    (∀ k v v', lookupA oldItems k = some v → lookupA st k = some v' →
      ¬ v = v' → v'.derivedOnly = some false → k ∈ res.1 ∧ k ∈ res.2.2) := by
  obtain ⟨hr, hres⟩ := request_files_elim env oldItems req res st h
  obtain ⟨hnodup, _⟩ := resolveReq_good env req st hr
  subst hres
  constructor
  · intro k hk
    rw [mem_keep_iff oldItems st k hnodup] at hk
    obtain ⟨v, hvn, hvo⟩ := hk
    constructor
    · rw [mem_clear_iff oldItems st k hold]
      rintro ⟨v0, hv0, hnc⟩
      have : v0 = v := (Option.some.injEq _ _).mp (hv0.symm.trans hvo)
      exact hnc (this ▸ hvn)
    · rw [mem_load_iff oldItems st k hnodup]
      rintro ⟨v0, hv0, hno, _⟩
      have : v0 = v := (Option.some.injEq _ _).mp (hv0.symm.trans hvn)
      exact hno (this ▸ hvo)
  · intro k v v' hvo hvn hne hdf
    constructor
    · rw [mem_clear_iff oldItems st k hold]
      refine ⟨v, hvo, ?_⟩
      intro hcon
      exact hne ((Option.some.injEq _ _).mp (hvn.symm.trans hcon)).symm
    · rw [mem_load_iff oldItems st k hnodup]
      refine ⟨v', hvn, ?_, ?_⟩
      · intro hcon
        exact hne ((Option.some.injEq _ _).mp (hvo.symm.trans hcon))
      · unfold lastFalsy
        rw [Bool.not_eq_true']
        apply decide_eq_false
        rw [hdf]
        simp

/-- C10, witness: the prior state holds `mFn0(a)` at location `/x`; the new
resolution binds it to `/m`, so the key appears in both `clear` and
`load`, and `keep` (empty here) is disjoint from both. -/
theorem names_c10_w :
    ("mFn0(a)".toList) ∈ ([("mFn0(a)".toList)], ([] : List Str),
      [("mFn0(a)".toList)]).1 ∧
    ("mFn0(a)".toList) ∈ ([("mFn0(a)".toList)], ([] : List Str),
      [("mFn0(a)".toList)]).2.2 :=
  (names_c10 wEnvM wReqF wOldX
      (([("mFn0(a)".toList)], [], [("mFn0(a)".toList)])) wStF
      (by decide) (by decide)).2 ("mFn0(a)".toList)
    (⟨some false, some ("/x".toList), some ("Fn0(a)".toList),
      some ("dct".toList), some false⟩) wInfoFa
    (by decide) (by decide) (by decide) (by decide)

/-- C3: calling `request_files` twice in succession with the same
requirement mapping and environment yields, on the second call,
`clear = []`, `load = []`, and `keep` equal to the full ordered list of
keys resolved by that request (and the remembered state is unchanged). -/
theorem names_c3 (env : Env) (req : List (Str × Req))
    (oldItems : List (Str × DInfoT)) (res1 : List Str × List Str × List Str)
    (st1 : List (Str × DInfoT))
    (h1 : request_files env oldItems req = some (res1, st1)) :
    request_files env st1 req = some (([], st1.map Prod.fst, []), st1) := by
  obtain ⟨hr, _⟩ := request_files_elim env oldItems req res1 st1 h1
  obtain ⟨hnodup, _⟩ := resolveReq_good env req st1 hr
  unfold request_files
  rw [hr]
  show some (partitionKeys st1 st1, st1) = some (([], st1.map Prod.fst, []), st1)
  rw [partition_self st1 hnodup]

/-- C3, witness: resolving `wReqF` twice; the second call keeps the one
resolved key and clears/loads nothing. -/
theorem names_c3_w :
    request_files wEnvM wStF wReqF = some (([], [("mFn0(a)".toList)], []), wStF) :=
  names_c3 wEnvM wReqF [] (([], [], [("mFn0(a)".toList)])) wStF (by decide)

/-- C4: no key whose origin (first) character is `'z'` ever appears in the
`load` list of a `request_files` call, whatever the prior state and the
requirement mapping. -/
theorem names_c4 (env : Env) (req : List (Str × Req))
    (oldItems : List (Str × DInfoT)) (res : List Str × List Str × List Str)
    (st : List (Str × DInfoT))
    (h : request_files env oldItems req = some (res, st)) :
    ∀ k ∈ res.2.2, ¬ k.head? = some 'z' := by
  obtain ⟨hr, hres⟩ := request_files_elim env oldItems req res st h
  obtain ⟨hnodup, hgood⟩ := resolveReq_good env req st hr
  subst hres
  intro k hk
  rw [mem_load_iff oldItems st k hnodup] at hk
  obtain ⟨v, hv, _, hlf⟩ := hk
  have hg := hgood (k, v) (lookupA_mem st k v hv)
  intro hcon
  unfold lastFalsy at hlf
  rw [Bool.not_eq_true'] at hlf
  apply absurd hlf
  rw [hg.2]
  simp [hcon]

/-- C4, witness: a request that resolves both derived (`z`-origin) graph
items and one main feature; the `load` list holds only the feature key,
whose origin is not `'z'`. -/
theorem names_c4_w : ¬ ("mFn0(a)".toList).head? = some 'z' :=
  names_c4 wEnvZ wReqZ [] (([], [], [("mFn0(a)".toList)])) wStZ (by decide)
    ("mFn0(a)".toList) (by decide)

/-- C7, counterexample.  The claim asserts that when the requirement bound
to an entry's minimal key is `True`, the emitted fully qualified key equals
the *minimal* key.  With the requirement `mG00 ↦ True`, the catalog entry
`mG00(node_sort)` (whose minimal key is `mG00`) emits the catalog key
`mG00(node_sort)` itself, and no emitted key equals the minimal key
`mG00`. -/
theorem names_c7_cex :
    (decomp ("mG00(node_sort)".toList)).1 = ("mG00".toList) ∧
    lookupA [(("mG00".toList), Req.bool true)] ("mG00".toList) =
      some (Req.bool true) ∧
    (resolveReq wEnvM [(("mG00".toList), Req.bool true)]).map
        (fun st => st.map Prod.fst) =
      some [("mG00(node_anchor_min)".toList), ("mG00(node_anchor_max)".toList),
            ("mG00(node_sort)".toList), ("mG00(node_sort_inv)".toList),
            ("mG00(edges_from)".toList), ("mG00(edges_to)".toList)] ∧
    ¬ ("mG00".toList) ∈
      [("mG00(node_anchor_min)".toList), ("mG00(node_anchor_max)".toList),
       ("mG00(node_sort)".toList), ("mG00(node_sort_inv)".toList),
       ("mG00(edges_from)".toList), ("mG00(edges_to)".toList)] := by
  refine ⟨by decide, by decide, by decide, by decide⟩

/-- C7, amended: for every catalog entry processed by `request_files`, the
requirement looked up under the entry's *minimal* key decides what is
emitted: the *entry's catalog key* itself when the requirement is the
boolean `True` (not the minimal key, as the claim stated); nothing when
the requirement is `False`, `None`, or absent; and one key `comp dkey c`
per element `c` of a structural requirement value, composed from the
entry's catalog key.  Every emitted pair is resolved via `dinfo`, and the
resolved mapping's keys are exactly the emitted keys. -/
theorem names_c7 (env : Env) (req : List (Str × Req))
    (oldItems : List (Str × DInfoT)) (res : List Str × List Str × List Str)
    (st : List (Str × DInfoT))
    (h : request_files env oldItems req = some (res, st)) :
    (st.map Prod.fst).Nodup ∧
    (∀ p ∈ st, dinfo env p.1 = some p.2) ∧
    (∀ k, k ∈ st.map Prod.fst ↔ ∃ d ∈ catalogKeys, k ∈ entryEmits req d) := by
  obtain ⟨hr, _⟩ := request_files_elim env oldItems req res st h
  obtain ⟨hnodup, hgood⟩ := resolveReq_good env req st hr
  refine ⟨hnodup, fun p hp => (hgood p hp).1, fun k => ?_⟩
  have := resolveList_keys env req catalogKeys [] st hr k
  simpa using this

/-- C7, witness: the amended emission description at the concrete
requirement `mFn0 ↦ [["a"]]`: the resolved keys are exactly the emitted
keys and each is resolved through `dinfo`. -/
theorem names_c7_w : dinfo wEnvM ("mFn0(a)".toList) = some wInfoFa :=
  (names_c7 wEnvM wReqF [] (([], [], [("mFn0(a)".toList)])) wStF (by decide)).2.1
    (("mFn0(a)".toList), wInfoFa) (by decide)

/-- C6: for every key accepted by `dinfo` (under any catalog contents) whose
group character is not `'T'`, the returned tuple has `is_persistent` false
exactly when the group is `'F'` or `'C'` and `is_derived_only` true exactly
when the origin is `'z'`; for group `'T'` the all-`None` five-tuple is
returned. -/
theorem names_c6 (cat : List (Str × (Req × Str))) (env : Env) (dkey : Str)
    (v : DInfoT) (h : dinfoC cat env dkey = some v) (o g ki d : Char)
    (comps : List Str) (h5 : decomp_full5 dkey = some (o, g, ki, d, comps)) :
    (g = 'T' → v = DInfoT.nullInfo) ∧
    (¬ g = 'T' → v.persistent = some (decide (¬ g = 'F' ∧ ¬ g = 'C')) ∧
      v.derivedOnly = some (decide (o = 'z'))) := by
  obtain ⟨req0, dtype, hcl, o', g', ki', d', comps', h5', hbr⟩ :=
    dinfoC_cases cat env dkey v h
  rw [h5] at h5'
  obtain ⟨ho, hg, hki, hd, hcomps⟩ :
      o = o' ∧ g = g' ∧ ki = ki' ∧ d = d' ∧ comps = comps' := by
    have := (Option.some.injEq _ _).mp h5'
    refine ⟨?_, ?_, ?_, ?_, ?_⟩ <;> simp_all
  subst ho hg hki hd hcomps
  rcases hbr with ⟨hgT, hv⟩ | ⟨hgT, dloc, hel, hv⟩
  · exact ⟨fun _ => hv, fun hng => absurd hgT hng⟩
  · refine ⟨fun hgg => absurd hgg hgT, fun _ => ?_⟩
    rw [hv]
    exact ⟨rfl, rfl⟩

/-- C6, witness: the non-Temp case at the feature key `mFn0(a)` under the
shipped catalog (persistent false, derived-only false), and the Temp case
at a key `xT00(q)` under a catalog that carries a Temp entry (all fields
null). -/
theorem names_c6_w :
    (¬ 'F' = 'T' → wInfoFa.persistent = some (decide (¬ 'F' = 'F' ∧ ¬ 'F' = 'C')) ∧
      wInfoFa.derivedOnly = some (decide ('m' = 'z'))) ∧
    ('T' = 'T' → DInfoT.nullInfo = DInfoT.nullInfo) :=
  ⟨(names_c6 data_items_def wEnvM ("mFn0(a)".toList) wInfoFa (by decide)
      'm' 'F' 'n' '0' [("a".toList)] (by decide)).2,
   (names_c6 [(("xT00(q)".toList), (Req.bool false, ("arr".toList)))] wEnvM
      ("xT00(q)".toList) DInfoT.nullInfo (by decide)
      'x' 'T' '0' '0' [("q".toList)] (by decide)).1⟩

/-! ### The load-specification validator -/

theorem collectOpt_all_some {α : Type} (f : α → Option (List Err)) (l : List α)
    (h : ∀ x ∈ l, ¬ f x = none) : collectOpt f l = some (catErrs f l) := by
  induction l with
  | nil => rfl
  | cons x xs ih =>
    cases hx : f x with
    | none => exact absurd hx (h x (by simp))
    | some es =>
      simp only [collectOpt, hx]
      rw [ih (fun y hy => h y (List.mem_cons_of_mem x hy))]
      simp [catErrs, hx]

theorem collectOpt_all_nil {α : Type} (f : α → Option (List Err)) (l : List α)
    (h : ∀ x ∈ l, f x = some []) : collectOpt f l = some [] := by
  induction l with
  | nil => rfl
  | cons x xs ih =>
    simp only [collectOpt, h x (by simp)]
    rw [ih (fun y hy => h y (List.mem_cons_of_mem x hy))]
    rfl

theorem inKindTypes_of_hashable (v : PyVal) (h : pyHashable v = true) :
    inKindTypes v = some (pyEqBool v false || pyEqBool v true) := by
  cases v <;> first | rfl | simp [pyHashable] at h

theorem checkXmlidsItem_ne (a b : PyVal)
    (h : (load_dict_subkeys.any (fun s => pyEqStr a s)) = true →
      pyHashable b = true) :
    ¬ checkXmlidsItem (a, some b) = none := by
  have hred : checkXmlidsItem (a, some b) =
      (if !(load_dict_subkeys.any (fun s => pyEqStr a s)) then
        some [Err.unknownSubkey a]
      else
        match inKindTypes b with
        | none => none
        | some c => if !c then some [Err.badBoolVal a b] else some []) := rfl
  rw [hred]
  split
  · simp
  · rename_i hany
    have ha : (load_dict_subkeys.any (fun s => pyEqStr a s)) = true := by
      cases hb : load_dict_subkeys.any (fun s => pyEqStr a s) with
      | false => exact absurd (by rw [hb]; rfl) hany
      | true => rfl
    rw [inKindTypes_of_hashable b (h ha)]
    show ¬ (if !(pyEqBool b false || pyEqBool b true) then _ else _) = none
    split <;> simp

theorem checkFeatItem_ne (ns a b : PyVal) : ¬ checkFeatItem ns (a, some b) = none := by
  unfold checkFeatItem
  split
  · simp
  · cases b <;> simp

theorem checkFeatNs_ne (a b : PyVal) (hb : isMappingVal b = true) :
    ¬ checkFeatNs (a, some b) = none := by
  cases b with
  | dict l =>
    show ¬ collectOpt (fun it => checkFeatItem a it)
      (l.map (fun p => (p.1, some p.2))) = none
    rw [collectOpt_all_some _ _ ?hne]
    · simp
    case hne =>
      intro it hit
      obtain ⟨p, _, hpe⟩ := List.mem_map.mp hit
      rw [← hpe]
      exact checkFeatItem_ne a p.1 p.2
  | odict l =>
    show ¬ collectOpt (fun it => checkFeatItem a it)
      (l.map (fun p => (p.1, some p.2))) = none
    rw [collectOpt_all_some _ _ ?hne2]
    · simp
    case hne2 =>
      intro it hit
      obtain ⟨p, _, hpe⟩ := List.mem_map.mp hit
      rw [← hpe]
      exact checkFeatItem_ne a p.1 p.2
  | bool c => simp [isMappingVal] at hb
  | int n => simp [isMappingVal] at hb
  | str s => simp [isMappingVal] at hb
  | list l => simp [isMappingVal] at hb
  | pynone => simp [isMappingVal] at hb

theorem bool_or_not_imp (a b : Bool) (h : (!a || b) = true) (ha : a = true) :
    b = true := by
  rw [ha] at h
  simpa using h

theorem checkEntry_ne (kv : PyVal × PyVal)
    (hx : pyEqStr kv.1 ("xmlids".toList) = true → isMappingVal kv.2 = true)
    (hf : pyEqStr kv.1 ("features".toList) = true →
      (isMappingVal kv.2 && innerMappings kv.2) = true)
    (hpr : pyEqStr kv.1 ("primary".toList) = true → pyHashable kv.2 = true)
    (hxh : pyEqStr kv.1 ("xmlids".toList) = true → xmlidsHashOk kv.2 = true) :
    ¬ checkEntry kv = none := by
  unfold checkEntry
  split
  · simp
  · split
    · rename_i hxm
      have hm := hx hxm
      have hxo := hxh hxm
      cases hv : kv.2 with
      | dict l =>
        show ¬ collectOpt checkXmlidsItem (l.map (fun p => (p.1, some p.2))) = none
        rw [collectOpt_all_some _ _ ?hne3]
        · simp
        case hne3 =>
          intro it hit
          obtain ⟨p, hpmem, hpe⟩ := List.mem_map.mp hit
          rw [← hpe]
          apply checkXmlidsItem_ne p.1 p.2
          intro hsub
          rw [hv] at hxo
          simp only [xmlidsHashOk, List.all_eq_true] at hxo
          exact bool_or_not_imp _ _ (hxo p hpmem) hsub
      | odict l =>
        show ¬ collectOpt checkXmlidsItem (l.map (fun p => (p.1, some p.2))) = none
        rw [collectOpt_all_some _ _ ?hne4]
        · simp
        case hne4 =>
          intro it hit
          obtain ⟨p, hpmem, hpe⟩ := List.mem_map.mp hit
          rw [← hpe]
          apply checkXmlidsItem_ne p.1 p.2
          intro hsub
          rw [hv] at hxo
          simp only [xmlidsHashOk, List.all_eq_true] at hxo
          exact bool_or_not_imp _ _ (hxo p hpmem) hsub
      | bool c => rw [hv] at hm; simp [isMappingVal] at hm
      | int n => rw [hv] at hm; simp [isMappingVal] at hm
      | str s => rw [hv] at hm; simp [isMappingVal] at hm
      | list l => rw [hv] at hm; simp [isMappingVal] at hm
      | pynone => rw [hv] at hm; simp [isMappingVal] at hm
    · split
      · rename_i hpm
        rw [inKindTypes_of_hashable kv.2 (hpr hpm)]
        show ¬ (if !(pyEqBool kv.2 false || pyEqBool kv.2 true) then _ else _) = none
        split <;> simp
      · split
        · rename_i hfm
          have hm := hf hfm
          rw [Bool.and_eq_true] at hm
          cases hv : kv.2 with
          | dict l =>
            show ¬ collectOpt checkFeatNs (l.map (fun p => (p.1, some p.2))) = none
            rw [collectOpt_all_some _ _ ?hne5]
            · simp
            case hne5 =>
              intro it hit
              obtain ⟨p, hp, hpe⟩ := List.mem_map.mp hit
              rw [← hpe]
              apply checkFeatNs_ne p.1 p.2
              have := hm.2
              rw [hv] at this
              simp only [innerMappings, List.all_eq_true] at this
              exact this p hp
          | odict l =>
            show ¬ collectOpt checkFeatNs (l.map (fun p => (p.1, some p.2))) = none
            rw [collectOpt_all_some _ _ ?hne6]
            · simp
            case hne6 =>
              intro it hit
              obtain ⟨p, hp, hpe⟩ := List.mem_map.mp hit
              rw [← hpe]
              apply checkFeatNs_ne p.1 p.2
              have := hm.2
              rw [hv] at this
              simp only [innerMappings, List.all_eq_true] at this
              exact this p hp
          | bool c => rw [hv] at hm; simp [isMappingVal] at hm
          | int n => rw [hv] at hm; simp [isMappingVal] at hm
          | str s => rw [hv] at hm; simp [isMappingVal] at hm
          | list l2 => rw [hv] at hm; simp [isMappingVal] at hm
          | pynone => rw [hv] at hm; simp [isMappingVal] at hm
        · split
          · cases kv.2 <;> simp
          · simp

theorem xmlidsItem_valid (p : PyVal × PyVal)
    (h : ((pyEqStr p.1 ("node".toList) || pyEqStr p.1 ("edge".toList)) &&
      (match p.2 with | PyVal.bool _ => true | _ => false)) = true) :
    checkXmlidsItem (p.1, some p.2) = some [] := by
  rw [Bool.and_eq_true] at h
  have hany : (load_dict_subkeys.any (fun s => pyEqStr p.1 s)) = true := by
    simp only [load_dict_subkeys, List.any_cons, List.any_nil, Bool.or_false]
    exact h.1
  cases hv : p.2 with
  | bool b =>
    have hred : checkXmlidsItem (p.1, some (PyVal.bool b)) =
        (if !(load_dict_subkeys.any (fun s => pyEqStr p.1 s)) then
          some [Err.unknownSubkey p.1]
        else if !((b == false) || (b == true)) then
          some [Err.badBoolVal p.1 (PyVal.bool b)]
        else some []) := rfl
    rw [hred, hany]
    cases b <;> rfl
  | int n => rw [hv] at h; simp at h
  | str s => rw [hv] at h; simp at h
  | list l => rw [hv] at h; simp at h
  | dict l => rw [hv] at h; simp at h
  | odict l => rw [hv] at h; simp at h
  | pynone => rw [hv] at h; simp at h

theorem featItem_valid (ns : PyVal) (p : PyVal × PyVal)
    (h : ((pyEqStr p.1 ("node".toList) || pyEqStr p.1 ("edge".toList)) &&
      (match p.2 with | PyVal.list _ => true | _ => false)) = true) :
    checkFeatItem ns (p.1, some p.2) = some [] := by
  rw [Bool.and_eq_true] at h
  have hany : (load_dict_subkeys.any (fun s => pyEqStr p.1 s)) = true := by
    simp only [load_dict_subkeys, List.any_cons, List.any_nil, Bool.or_false]
    exact h.1
  unfold checkFeatItem
  rw [hany]
  show (if !true then _ else match some p.2 with
    | none => none
    | some v => match v with
      | PyVal.list _ => some []
      | _ => some [Err.badFeatList ns p.1 v]) = some []
  simp only [Bool.not_true, Bool.false_eq_true, if_false]
  cases hv : p.2 with
  | list l => rfl
  | bool b => rw [hv] at h; simp at h
  | int n => rw [hv] at h; simp at h
  | str s => rw [hv] at h; simp at h
  | dict l => rw [hv] at h; simp at h
  | odict l => rw [hv] at h; simp at h
  | pynone => rw [hv] at h; simp at h

theorem featNs_valid (p : PyVal × PyVal) (h : specNsVal p.2 = true) :
    checkFeatNs (p.1, some p.2) = some [] := by
  cases hv : p.2 with
  | dict l2 =>
    show collectOpt (fun it => checkFeatItem p.1 it)
      (l2.map (fun q => (q.1, some q.2))) = some []
    apply collectOpt_all_nil
    intro it hit
    obtain ⟨q, hq, hqe⟩ := List.mem_map.mp hit
    rw [← hqe]
    apply featItem_valid p.1 q
    rw [hv] at h
    exact (List.all_eq_true.mp h) q hq
  | odict l2 =>
    show collectOpt (fun it => checkFeatItem p.1 it)
      (l2.map (fun q => (q.1, some q.2))) = some []
    apply collectOpt_all_nil
    intro it hit
    obtain ⟨q, hq, hqe⟩ := List.mem_map.mp hit
    rw [← hqe]
    apply featItem_valid p.1 q
    rw [hv] at h
    exact (List.all_eq_true.mp h) q hq
  | bool b => rw [hv] at h; simp [specNsVal] at h
  | int n => rw [hv] at h; simp [specNsVal] at h
  | str s => rw [hv] at h; simp [specNsVal] at h
  | list l => rw [hv] at h; simp [specNsVal] at h
  | pynone => rw [hv] at h; simp [specNsVal] at h

theorem checkEntry_valid (kv : PyVal × PyVal) (h : specValidEntry kv = true) :
    checkEntry kv = some [] := by
  obtain ⟨k, v⟩ := kv
  unfold specValidEntry at h
  rw [Bool.or_eq_true, Bool.or_eq_true, Bool.or_eq_true] at h
  rcases h with ((hp | hx) | hf) | hpr
  · rw [Bool.and_eq_true] at hp
    cases k with
    | str s =>
      have hs : s = "primary".toList := of_decide_eq_true hp.1
      subst hs
      cases hv : v with
      | bool b => cases b <;> rfl
      | int n => rw [hv] at hp; simp at hp
      | str s2 => rw [hv] at hp; simp at hp
      | list l => rw [hv] at hp; simp at hp
      | dict l => rw [hv] at hp; simp at hp
      | odict l => rw [hv] at hp; simp at hp
      | pynone => rw [hv] at hp; simp at hp
    | bool b => simp [pyEqStr] at hp
    | int n => simp [pyEqStr] at hp
    | list l => simp [pyEqStr] at hp
    | dict l => simp [pyEqStr] at hp
    | odict l => simp [pyEqStr] at hp
    | pynone => simp [pyEqStr] at hp
  · rw [Bool.and_eq_true] at hx
    cases k with
    | str s =>
      have hs : s = "xmlids".toList := of_decide_eq_true hx.1
      subst hs
      have hall := hx.2
      cases hv : v with
      | dict l =>
        show collectOpt checkXmlidsItem (l.map (fun p => (p.1, some p.2))) = some []
        apply collectOpt_all_nil
        intro it hit
        obtain ⟨p, hp, hpe⟩ := List.mem_map.mp hit
        rw [← hpe]
        apply xmlidsItem_valid p
        rw [hv] at hall
        exact (List.all_eq_true.mp hall) p hp
      | odict l =>
        show collectOpt checkXmlidsItem (l.map (fun p => (p.1, some p.2))) = some []
        apply collectOpt_all_nil
        intro it hit
        obtain ⟨p, hp, hpe⟩ := List.mem_map.mp hit
        rw [← hpe]
        apply xmlidsItem_valid p
        rw [hv] at hall
        exact (List.all_eq_true.mp hall) p hp
      | bool b => rw [hv] at hall; simp at hall
      | int n => rw [hv] at hall; simp at hall
      | str s2 => rw [hv] at hall; simp at hall
      | list l => rw [hv] at hall; simp at hall
      | pynone => rw [hv] at hall; simp at hall
    | bool b => simp [pyEqStr] at hx
    | int n => simp [pyEqStr] at hx
    | list l => simp [pyEqStr] at hx
    | dict l => simp [pyEqStr] at hx
    | odict l => simp [pyEqStr] at hx
    | pynone => simp [pyEqStr] at hx
  · rw [Bool.and_eq_true] at hf
    cases k with
    | str s =>
      have hs : s = "features".toList := of_decide_eq_true hf.1
      subst hs
      have hall := hf.2
      cases hv : v with
      | dict l =>
        show collectOpt checkFeatNs (l.map (fun p => (p.1, some p.2))) = some []
        apply collectOpt_all_nil
        intro it hit
        obtain ⟨p, hp, hpe⟩ := List.mem_map.mp hit
        rw [← hpe]
        apply featNs_valid p
        rw [hv] at hall
        exact (List.all_eq_true.mp hall) p hp
      | odict l =>
        show collectOpt checkFeatNs (l.map (fun p => (p.1, some p.2))) = some []
        apply collectOpt_all_nil
        intro it hit
        obtain ⟨p, hp, hpe⟩ := List.mem_map.mp hit
        rw [← hpe]
        apply featNs_valid p
        rw [hv] at hall
        exact (List.all_eq_true.mp hall) p hp
      | bool b => rw [hv] at hall; simp at hall
      | int n => rw [hv] at hall; simp at hall
      | str s2 => rw [hv] at hall; simp at hall
      | list l => rw [hv] at hall; simp at hall
      | pynone => rw [hv] at hall; simp at hall
    | bool b => simp [pyEqStr] at hf
    | int n => simp [pyEqStr] at hf
    | list l => simp [pyEqStr] at hf
    | dict l => simp [pyEqStr] at hf
    | odict l => simp [pyEqStr] at hf
    | pynone => simp [pyEqStr] at hf
  · rw [Bool.and_eq_true] at hpr
    cases k with
    | str s =>
      have hs : s = "prepare".toList := of_decide_eq_true hpr.1
      subst hs
      cases hv : v with
      | odict l => rfl
      | bool b => rw [hv] at hpr; simp at hpr
      | int n => rw [hv] at hpr; simp at hpr
      | str s2 => rw [hv] at hpr; simp at hpr
      | list l => rw [hv] at hpr; simp at hpr
      | dict l => rw [hv] at hpr; simp at hpr
      | pynone => rw [hv] at hpr; simp at hpr
    | bool b => simp [pyEqStr] at hpr
    | int n => simp [pyEqStr] at hpr
    | list l => simp [pyEqStr] at hpr
    | dict l => simp [pyEqStr] at hpr
    | odict l => simp [pyEqStr] at hpr
    | pynone => simp [pyEqStr] at hpr

/-- C5, counterexample.  The claim asserts that on every invalid load
specification `check_load_dict` raises exactly one error listing every
detected shape violation.  Two reachable inputs refute it: on
`{'abc': None, 'xmlids': True, 'primary': "x"}` — three independent
violations (unknown top-level key, wrong-shaped `xmlids` value,
non-boolean `primary`) — the function crashes with a `TypeError` while
iterating the boolean bound to `xmlids` (modelled by `none`), losing the
already-collected unknown-key violation; and on `{'primary': []}` the
membership test `val not in {False, True}` raises a `TypeError` on the
unhashable list instead of reporting the non-boolean value, even though
the sections that get iterated are fine. -/
theorem names_c5_cex :
    check_load_dict
      [((PyVal.str ("abc".toList)), PyVal.pynone),
       ((PyVal.str ("xmlids".toList)), PyVal.bool true),
       ((PyVal.str ("primary".toList)), PyVal.str ("x".toList))] = none ∧
    specValid
      [((PyVal.str ("abc".toList)), PyVal.pynone),
       ((PyVal.str ("xmlids".toList)), PyVal.bool true),
       ((PyVal.str ("primary".toList)), PyVal.str ("x".toList))] = false ∧
    check_load_dict [((PyVal.str ("primary".toList)), PyVal.list [])] = none ∧
    sectionsOk [((PyVal.str ("primary".toList)), PyVal.list [])] = true ∧
    specValid [((PyVal.str ("primary".toList)), PyVal.list [])] = false := by
  exact ⟨rfl, rfl, rfl, rfl, rfl⟩

/-- C5, amended: for every load specification whose `xmlids` and `features`
sections (and every `features` namespace) are bound to mappings, and whose
membership-probed values (the `primary` value and the `node`/`edge` values
under `xmlids`) are hashable — the shapes on which neither the validator's
iteration nor its `val not in {False, True}` tests can raise —
`check_load_dict` collects the violations of *all* entries (the
concatenation `catErrs`, not merely the first entry's), raises one error
listing them when nonempty, and returns silently on every valid
specification.  Outside these shapes it can crash with an unaggregated
`TypeError` (see the counterexample). -/
theorem names_c5 (ld : List (PyVal × PyVal)) (hok : sectionsOk ld = true)
    (hhash : probesHashable ld = true) :
    check_load_dict ld = some (catErrs checkEntry ld) ∧
    (specValid ld = true → check_load_dict ld = some []) := by
  have hne : ∀ kv ∈ ld, ¬ checkEntry kv = none := by
    intro kv hm
    have hk := (List.all_eq_true.mp hok) kv hm
    have hk2 := (List.all_eq_true.mp hhash) kv hm
    rw [Bool.and_eq_true] at hk hk2
    apply checkEntry_ne
    · intro hxm
      exact bool_or_not_imp _ _ hk.1 hxm
    · intro hfm
      exact bool_or_not_imp _ _ hk.2 hfm
    · intro hpm
      exact bool_or_not_imp _ _ hk2.1 hpm
    · intro hxm
      exact bool_or_not_imp _ _ hk2.2 hxm
  constructor
  · exact collectOpt_all_some checkEntry ld hne
  · intro hv
    apply collectOpt_all_nil
    intro kv hm
    exact checkEntry_valid kv ((List.all_eq_true.mp hv) kv hm)

/-- C5, witness: the spec's three-violation example (unknown key,
non-boolean `primary`, non-sequence under `features.ns.node`) produces the
single aggregated report listing all three, through the amended
theorem. -/
theorem names_c5_w :
    check_load_dict
      [((PyVal.str ("bogus".toList)), PyVal.pynone),
       ((PyVal.str ("primary".toList)), PyVal.str ("x".toList)),
       ((PyVal.str ("features".toList)),
        PyVal.dict [((PyVal.str ("ns".toList)),
          PyVal.dict [((PyVal.str ("node".toList)), PyVal.bool true)])])] =
      some [Err.unknownKey (PyVal.str ("bogus".toList)),
            Err.badPrimary (PyVal.str ("x".toList)),
            Err.badFeatList (PyVal.str ("ns".toList)) (PyVal.str ("node".toList))
              (PyVal.bool true)] :=
  ((names_c5
      [((PyVal.str ("bogus".toList)), PyVal.pynone),
       ((PyVal.str ("primary".toList)), PyVal.str ("x".toList)),
       ((PyVal.str ("features".toList)),
        PyVal.dict [((PyVal.str ("ns".toList)),
          PyVal.dict [((PyVal.str ("node".toList)), PyVal.bool true)])])]
      rfl rfl).1).trans rfl

/-- C8, counterexample.  The claim asserts a value under `primary` passes
validation iff it is a boolean, any non-boolean producing a validation
error.  Two non-booleans refute it: the integer `1` *passes* (Python's
`==` identifies `1` with `True`), and the empty list produces no
validation error either — the membership test `val not in {False, True}`
raises a `TypeError` on the unhashable list (modelled by `none`). -/
theorem names_c8_cex :
    check_load_dict [((PyVal.str ("primary".toList)), PyVal.int 1)] = some [] ∧
    (∀ b : Bool, ¬ PyVal.int 1 = PyVal.bool b) ∧
    check_load_dict [((PyVal.str ("primary".toList)), PyVal.list [])] = none ∧
    (∀ b : Bool, ¬ PyVal.list [] = PyVal.bool b) :=
  ⟨rfl, fun _ h => PyVal.noConfusion h, rfl, fun _ h => PyVal.noConfusion h⟩

/-- C8, amended: a value bound to `primary`, or to `node`/`edge` under
`xmlids`, passes validation iff it equals `True` or `False` under Python
equality — that is, iff it is a boolean or one of the integers `1` and
`0`.  Any other *hashable* value (another integer, a string, `None`)
produces a validation error, while an unhashable value (a list or a dict)
makes the membership test `val not in {False, True}` raise an uncaught
`TypeError` instead of producing a validation error. -/
theorem names_c8 (v : PyVal) :
    (check_load_dict [((PyVal.str ("primary".toList)), v)] = some [] ↔
      (v = PyVal.bool true ∨ v = PyVal.bool false ∨
       v = PyVal.int 1 ∨ v = PyVal.int 0)) ∧
    (check_load_dict [((PyVal.str ("primary".toList)), v)] = none ↔
      pyHashable v = false) ∧
    (check_load_dict [((PyVal.str ("xmlids".toList)),
        PyVal.dict [((PyVal.str ("node".toList)), v)])] = some [] ↔
      (v = PyVal.bool true ∨ v = PyVal.bool false ∨
       v = PyVal.int 1 ∨ v = PyVal.int 0)) ∧
    (check_load_dict [((PyVal.str ("xmlids".toList)),
        PyVal.dict [((PyVal.str ("node".toList)), v)])] = none ↔
      pyHashable v = false) ∧
    (check_load_dict [((PyVal.str ("xmlids".toList)),
        PyVal.dict [((PyVal.str ("edge".toList)), v)])] = some [] ↔
      (v = PyVal.bool true ∨ v = PyVal.bool false ∨
       v = PyVal.int 1 ∨ v = PyVal.int 0)) ∧
    (check_load_dict [((PyVal.str ("xmlids".toList)),
        PyVal.dict [((PyVal.str ("edge".toList)), v)])] = none ↔
      pyHashable v = false) := by
  refine ⟨?_, ?_, ?_, ?_, ?_, ?_⟩ <;>
    cases v <;>
      first
        | (simp [check_load_dict, collectOpt, checkEntry, checkXmlidsItem,
             inKindTypes, pyHashable, pyEqBool, pyEqStr, pyItems,
             load_dict_keys, load_dict_subkeys]
           done)
        | (rename_i n
           simp [check_load_dict, collectOpt, checkEntry, checkXmlidsItem,
             inKindTypes, pyHashable, pyEqBool, pyEqStr, pyItems,
             load_dict_keys, load_dict_subkeys]
           by_cases h0 : n = 0 <;> by_cases h1 : n = 1 <;>
             simp [h0, h1])

/-- C8, witness: the amended criterion applied at the non-boolean value
`1`, which passes validation under `primary`. -/
theorem names_c8_w :
    check_load_dict [((PyVal.str ("primary".toList)), PyVal.int 1)] = some [] :=
  (names_c8 (PyVal.int 1)).1.mpr (Or.inr (Or.inr (Or.inl rfl)))

end Laf
